import Mathlib

/-!
Verification of the entity/component store and event bus of the
bicep-rpg-phaser repository.

The embedding mirrors, definition by definition:
  * src/core/Entity.js        (structure Entity and its methods)
  * src/systems/ProgressionSystem.js, class EntityManager
  * src/core/EventBus.js      (two views: a queue/drain model and a
                               mutable-subscription model for once/off)

JS Maps are modelled as association lists with Map semantics (set replaces
in place, delete removes the unique entry, lookup finds the first match);
JS Sets as duplicate-free lists with append-if-absent insertion.
-/

set_option autoImplicit false

namespace RPG

/-- JS Map.get: value bound to key k, looking at entries front to back. -/
def alookup {α : Type} : List (String × α) → String → Option α
  | [], _ => none
  | (k', v) :: rest, k => if k' = k then some v else alookup rest k

/-- JS Map.set: replace the binding in place when the key is present
(keeping its position, as Map does), append a fresh binding otherwise. -/
def aset {α : Type} : List (String × α) → String → α → List (String × α)
  | [], k, v => [(k, v)]
  | (k', v') :: rest, k, v =>
      if k' = k then (k', v) :: rest else (k', v') :: aset rest k v

/-- JS Map.delete: drop the (unique) binding of k when present. -/
def aremove {α : Type} : List (String × α) → String → List (String × α)
  | [], _ => []
  | (k', v') :: rest, k => if k' = k then rest else (k', v') :: aremove rest k

/-- JS Set.add: append when the element is absent, no-op otherwise. -/
def sadd (s : List String) (x : String) : List String :=
  if x ∈ s then s else s ++ [x]

/- ### Basic association-list lemmas -/

theorem alookup_eq_none_iff {α : Type} (m : List (String × α)) (k : String) :
    alookup m k = none ↔ k ∉ m.map Prod.fst := by
  induction m with
  | nil => simp [alookup]
  | cons p rest ih =>
      obtain ⟨k', v⟩ := p
      by_cases h : k' = k <;> simp [alookup, h, ih, Ne.symm]

theorem alookup_append_none {α : Type} (m n : List (String × α)) (k : String)
    (hm : alookup m k = none) : alookup (m ++ n) k = alookup n k := by
  induction m with
  | nil => simp
  | cons p rest ih =>
      obtain ⟨k', v⟩ := p
      by_cases h : k' = k
      · simp [alookup, h] at hm
      · simpa [alookup, h] using ih (by simpa [alookup, h] using hm)

theorem aset_of_lookup_none {α : Type} (m : List (String × α)) (k : String) (v : α)
    (h : alookup m k = none) : aset m k v = m ++ [(k, v)] := by
  induction m with
  | nil => simp [aset]
  | cons p rest ih =>
      obtain ⟨k', v'⟩ := p
      by_cases hk : k' = k
      · simp [alookup, hk] at h
      · simp [aset, hk, ih (by simpa [alookup, hk] using h)]

theorem foldl_aset_of_nodup {α : Type} (l : List (String × α)) :
    ∀ (m : List (String × α)), (l.map Prod.fst).Nodup →
      (∀ p ∈ l, alookup m p.1 = none) →
      l.foldl (fun acc p => aset acc p.1 p.2) m = m ++ l := by
  induction l with
  | nil => intro m _ _; simp
  | cons p rest ih =>
      intro m hnd hfresh
      obtain ⟨k, v⟩ := p
      have hm : alookup m k = none := hfresh (k, v) (by simp)
      have hstep : aset m k v = m ++ [(k, v)] := aset_of_lookup_none m k v hm
      have hnd' : (rest.map Prod.fst).Nodup := (List.nodup_cons.mp hnd).2
      have hknot : k ∉ rest.map Prod.fst := (List.nodup_cons.mp hnd).1
      have hfresh' : ∀ q ∈ rest, alookup (m ++ [(k, v)]) q.1 = none := by
        intro q hq
        have hq1 : alookup m q.1 = none := hfresh q (by simp [hq])
        have hne : k ≠ q.1 := by
          intro hcontr
          exact hknot (hcontr ▸ List.mem_map_of_mem Prod.fst hq)
        rw [alookup_append_none m [(k, v)] q.1 hq1]
        simp [alookup, hne]
      calc (rest.foldl (fun acc p => aset acc p.1 p.2) (aset m k v))
          = rest.foldl (fun acc p => aset acc p.1 p.2) (m ++ [(k, v)]) := by rw [hstep]
        _ = (m ++ [(k, v)]) ++ rest := ih (m ++ [(k, v)]) hnd' hfresh'
        _ = m ++ ((k, v) :: rest) := by simp

theorem foldl_sadd_of_nodup (l : List String) :
    ∀ (s : List String), l.Nodup → (∀ x ∈ l, x ∉ s) →
      l.foldl (fun acc t => sadd acc t) s = s ++ l := by
  induction l with
  | nil => intro s _ _; simp
  | cons t rest ih =>
      intro s hnd hfresh
      have ht : t ∉ s := hfresh t (by simp)
      have hstep : sadd s t = s ++ [t] := by simp [sadd, ht]
      have hnd' : rest.Nodup := (List.nodup_cons.mp hnd).2
      have htnot : t ∉ rest := (List.nodup_cons.mp hnd).1
      have hfresh' : ∀ x ∈ rest, x ∉ s ++ [t] := by
        intro x hx
        simp only [List.mem_append, List.mem_singleton]
        rintro (hxs | hxt)
        · exact hfresh x (by simp [hx]) hxs
        · exact htnot (hxt ▸ hx)
      calc (rest.foldl (fun acc t' => sadd acc t') (sadd s t))
          = rest.foldl (fun acc t' => sadd acc t') (s ++ [t]) := by rw [hstep]
        _ = (s ++ [t]) ++ rest := ih (s ++ [t]) hnd' hfresh'
        _ = s ++ (t :: rest) := by simp

/- ### Entity (src/core/Entity.js) -/

/-- Component data: a plain record of named numeric fields (components in the
game are plain JS objects; numeric fields suffice for the properties here). -/
abbrev Cmp := List (String × Nat)

/-- Mirrors the `Entity` class fields set in the constructor. -/
structure Entity where
  id : String
  components : List (String × Cmp)
  tags : List String
  active : Bool
  destroyed : Bool
deriving Repr, DecidableEq

/-- Mirrors `new Entity(id)`: `this.id = id || this.generateId()`. A string is
falsy in JS exactly when empty, so the generated fallback (a time/random string,
passed in as `gen` since it is environment-dependent) is used iff `id = ""`.
`null` is modelled by passing `""`. -/
def mkEntity (gen : String) (id : String) : Entity :=
  { id := if id = "" then gen else id
    components := []
    tags := []
    active := true
    destroyed := false }

/-- Mirrors `addComponent`: refuses (console.error, returns this unchanged) on a
destroyed entity; otherwise stores `{ ...componentData }` — a fresh shallow
copy, which for the pure record values used here is the record itself
(the aliasing content of the copy is verified separately on the heap model). -/
def Entity.addComponent (e : Entity) (componentType : String) (componentData : Cmp) : Entity :=
  if e.destroyed then e
  else { e with components := aset e.components componentType componentData }

/-- Mirrors `getComponent`. -/
def Entity.getComponent (e : Entity) (componentType : String) : Option Cmp :=
  alookup e.components componentType

/-- Mirrors `hasComponent`. -/
def Entity.hasComponent (e : Entity) (componentType : String) : Bool :=
  (alookup e.components componentType).isSome

/-- Mirrors `hasComponents`: every listed type present. -/
def Entity.hasComponents (e : Entity) (componentTypes : List String) : Bool :=
  componentTypes.all (fun t => e.hasComponent t)

/-- Mirrors `removeComponent`: note there is no destroyed-entity guard in the source. -/
def Entity.removeComponent (e : Entity) (componentType : String) : Entity :=
  { e with components := aremove e.components componentType }

/-- Mirrors `addTag`: note there is no destroyed-entity guard in the source. -/
def Entity.addTag (e : Entity) (tag : String) : Entity :=
  { e with tags := sadd e.tags tag }

/-- Mirrors `removeTag`. -/
def Entity.removeTag (e : Entity) (tag : String) : Entity :=
  { e with tags := e.tags.erase tag }

/-- Mirrors `hasTag`. -/
def Entity.hasTag (e : Entity) (tag : String) : Bool :=
  e.tags.contains tag

/-- Mirrors `setActive`. -/
def Entity.setActive (e : Entity) (a : Bool) : Entity :=
  { e with active := a }

/-- Mirrors `destroy`. -/
def Entity.destroy (e : Entity) : Entity :=
  { e with destroyed := true, active := false }

/-- The plain record produced by `serialize()`: `Object.fromEntries` on the
component Map (lossless, Map keys are unique), `Array.from` on the tag Set. -/
structure SerializedEntity where
  id : String
  components : List (String × Cmp)
  tags : List String
  active : Bool
deriving Repr, DecidableEq

/-- Mirrors `serialize()`. -/
def Entity.serialize (e : Entity) : SerializedEntity :=
  { id := e.id, components := e.components, tags := e.tags, active := e.active }

/-- Mirrors `Entity.deserialize(data)`: builds `new Entity(data.id)`, replays
`addComponent` over `Object.entries(data.components)`, replays `addTag`
over `data.tags`, then sets `entity.active = data.active !== false`. -/
def Entity.deserialize (gen : String) (data : SerializedEntity) : Entity :=
  let entity := mkEntity gen data.id
  let entity := data.components.foldl (fun acc p => acc.addComponent p.1 p.2) entity
  let entity := data.tags.foldl (fun acc t => acc.addTag t) entity
  { entity with active := !(data.active == false) }

/- ### Lemmas about folding Entity mutators -/

theorem foldl_addComponent (l : List (String × Cmp)) :
    ∀ (e : Entity), e.destroyed = false →
      l.foldl (fun acc p => acc.addComponent p.1 p.2) e
        = { e with components := l.foldl (fun m p => aset m p.1 p.2) e.components } := by
  induction l with
  | nil => intro e _; simp
  | cons p rest ih =>
      intro e hd
      have hstep : e.addComponent p.1 p.2
          = { e with components := aset e.components p.1 p.2 } := by
        simp [Entity.addComponent, hd]
      simp only [List.foldl_cons]
      rw [hstep, ih { e with components := aset e.components p.1 p.2 } hd]

theorem foldl_addTag (l : List String) :
    ∀ (e : Entity),
      l.foldl (fun acc t => acc.addTag t) e
        = { e with tags := l.foldl (fun s t => sadd s t) e.tags } := by
  induction l with
  | nil => intro e; simp
  | cons t rest ih =>
      intro e
      simp only [List.foldl_cons]
      rw [show e.addTag t = { e with tags := sadd e.tags t } from rfl,
        ih { e with tags := sadd e.tags t }]

/- ### Claim C3 -/

/-- A concrete destroyed entity used to exercise the missing guards. -/
def destroyedEnt : Entity :=
  { id := "e1"
    components := [("health", [("hp", 10)])]
    tags := ["mob"]
    active := false
    destroyed := true }

/-- Claim C3, counterexample: the claim says `removeComponent` and `addTag` on a
destroyed entity leave the component map and tag set unchanged, but the source
guards only `addComponent`; on this destroyed entity `removeComponent` deletes
the component and `addTag` grows the tag set. -/
theorem destroyed_removeComponent_mutates :
    (destroyedEnt.removeComponent "health").components ≠ destroyedEnt.components
    ∧ (destroyedEnt.addTag "boss").tags ≠ destroyedEnt.tags := by
  constructor <;> decide

/-- Claim C3 (amended): of the three operations only `addComponent` is guarded:
on a destroyed entity it is a no-op (and none of the three throws — all are
total); `removeComponent` and `addTag` mutate destroyed entities. -/
theorem destroyed_addComponent_noop (e : Entity) (t : String) (d : Cmp)
    (h : e.destroyed = true) : e.addComponent t d = e := by
  simp [Entity.addComponent, h]

/-- Witness for the amended C3 at a concrete destroyed entity. -/
theorem destroyed_addComponent_noop_witness :
    destroyedEnt.addComponent "power" [("str", 5)] = destroyedEnt :=
  destroyed_addComponent_noop destroyedEnt "power" [("str", 5)] (by decide)

/- ### Claim C4 -/

/-- Claim C4: `Entity.deserialize(e.serialize())` reproduces id, component map
contents, tag set and active flag. The hypotheses are invariants every actual
`Entity` satisfies by construction: a constructed id is never the empty string
(`id || generateId()`), Map keys are unique, Set elements are unique. -/
theorem serialize_roundtrip (gen : String) (e : Entity)
    (h1 : e.id ≠ "")
    (h2 : (e.components.map Prod.fst).Nodup)
    (h3 : e.tags.Nodup) :
    (Entity.deserialize gen e.serialize).id = e.id
    ∧ (Entity.deserialize gen e.serialize).components = e.components
    ∧ (Entity.deserialize gen e.serialize).tags = e.tags
    ∧ (Entity.deserialize gen e.serialize).active = e.active := by
  have hmk : mkEntity gen e.id
      = { id := e.id, components := [], tags := [], active := true, destroyed := false } := by
    simp [mkEntity, h1]
  have hcomps :
      e.components.foldl (fun m p => aset m p.1 p.2) ([] : List (String × Cmp))
        = e.components := by
    have := foldl_aset_of_nodup e.components [] h2 (by intro p _; rfl)
    simpa using this
  have htags : e.tags.foldl (fun s t => sadd s t) ([] : List String) = e.tags := by
    have := foldl_sadd_of_nodup e.tags [] h3 (by intro x _; simp)
    simpa using this
  have hmid :
      e.components.foldl (fun acc p => acc.addComponent p.1 p.2) (mkEntity gen e.id)
        = { id := e.id, components := e.components, tags := [], active := true,
            destroyed := false } := by
    rw [hmk, foldl_addComponent _ _ (by rfl)]
    simp [hcomps]
  have hmid2 :
      e.tags.foldl (fun acc t => acc.addTag t)
          ({ id := e.id, components := e.components, tags := [], active := true,
             destroyed := false } : Entity)
        = { id := e.id, components := e.components, tags := e.tags, active := true,
            destroyed := false } := by
    rw [foldl_addTag]
    simp [htags]
  have hres : Entity.deserialize gen e.serialize
      = { id := e.id, components := e.components, tags := e.tags,
          active := !(e.active == false), destroyed := false } := by
    show ({ (e.serialize.tags.foldl (fun acc t => acc.addTag t)
        (e.serialize.components.foldl (fun acc p => acc.addComponent p.1 p.2)
          (mkEntity gen e.serialize.id))) with
        active := !(e.serialize.active == false) } : Entity) = _
    have hser1 : e.serialize.id = e.id := rfl
    have hser2 : e.serialize.components = e.components := rfl
    have hser3 : e.serialize.tags = e.tags := rfl
    have hser4 : e.serialize.active = e.active := rfl
    rw [hser1, hser2, hser3, hser4, hmid, hmid2]
  rw [hres]
  refine ⟨rfl, rfl, rfl, ?_⟩
  cases e.active <;> rfl

/-- Witness for C4 at a concrete entity with components, tags, inactive flag. -/
theorem serialize_roundtrip_witness :
    (Entity.deserialize "gen9"
        (Entity.serialize
          { id := "hero1"
            components := [("position", [("x", 3), ("y", 4)]), ("health", [("hp", 7)])]
            tags := ["player", "party"]
            active := false
            destroyed := false })).components
        = [("position", [("x", 3), ("y", 4)]), ("health", [("hp", 7)])]
    ∧ (Entity.deserialize "gen9"
        (Entity.serialize
          { id := "hero1"
            components := [("position", [("x", 3), ("y", 4)]), ("health", [("hp", 7)])]
            tags := ["player", "party"]
            active := false
            destroyed := false })).active = false := by
  have h := serialize_roundtrip "gen9"
    { id := "hero1"
      components := [("position", [("x", 3), ("y", 4)]), ("health", [("hp", 7)])]
      tags := ["player", "party"]
      active := false
      destroyed := false }
    (by decide) (by decide) (by decide)
  exact ⟨h.2.1, h.2.2.2⟩

/- ### EntityManager (src/systems/ProgressionSystem.js, class EntityManager) -/

/-- The manager's four maps. The eventBus it also holds only receives emits of
`entity:created` / `entity:destroyed` / `entities:update`, none of which has a
manager-mutating subscriber (`entity:destroy` is the only subscription and is
an inbound command), so the bus does not appear in the state. -/
structure EntityManager where
  entities : List (String × Entity)
  entitiesByTag : List (String × List String)
  entitiesByComponent : List (String × List String)
  entitiesToDestroy : List String
deriving Repr, DecidableEq

def emptyManager : EntityManager :=
  { entities := [], entitiesByTag := [], entitiesByComponent := [], entitiesToDestroy := [] }

/-- The `if (!map.has(k)) map.set(k, new Set()); map.get(k).add(id)` idiom
shared by both index updates in `addEntity`. -/
def indexAdd (idx : List (String × List String)) (k : String) (id : String) :
    List (String × List String) :=
  aset idx k (sadd ((alookup idx k).getD []) id)

/-- The `const s = map.get(k); if (s) { s.delete(id); if (s.size === 0)
map.delete(k); }` idiom shared by both index updates in `removeEntity`. -/
def indexRemove (idx : List (String × List String)) (k : String) (id : String) :
    List (String × List String) :=
  match alookup idx k with
  | none => idx
  | some bucket =>
      let bucket' := bucket.erase id
      if bucket'.isEmpty then aremove idx k else aset idx k bucket'

/-- Mirrors `addEntity`: registers in the primary map, then indexes by every tag and by
every component type of the entity. -/
def EntityManager.addEntity (m : EntityManager) (entity : Entity) : EntityManager :=
  { m with
      entities := aset m.entities entity.id entity
      entitiesByTag :=
        entity.tags.foldl (fun idx tag => indexAdd idx tag entity.id) m.entitiesByTag
      entitiesByComponent :=
        (entity.components.map Prod.fst).foldl
          (fun idx c => indexAdd idx c entity.id) m.entitiesByComponent }

/-- Mirrors `removeEntity`: no-op when absent; otherwise unindexes by the entity's
current tags and component types, then deletes it from the primary map.
The trailing `entity.destroy()` mutates the removed object (no longer
reachable from the manager) and the `entity:destroyed` emit does not change
manager state, so neither appears here. -/
def EntityManager.removeEntity (m : EntityManager) (entityId : String) : EntityManager :=
  match alookup m.entities entityId with
  | none => m
  | some entity =>
      { m with
          entities := aremove m.entities entityId
          entitiesByTag :=
            entity.tags.foldl (fun idx tag => indexRemove idx tag entityId) m.entitiesByTag
          entitiesByComponent :=
            (entity.components.map Prod.fst).foldl
              (fun idx c => indexRemove idx c entityId) m.entitiesByComponent }

/-- Mirrors `getEntity`: `this.entities.get(entityId) || null`. -/
def EntityManager.getEntity (m : EntityManager) (entityId : String) : Option Entity :=
  alookup m.entities entityId

/-- Mirrors `getEntitiesByTag`: ids from the tag index, mapped through the primary map,
keeping only present (`entity &&`) and active entities. -/
def EntityManager.getEntitiesByTag (m : EntityManager) (tag : String) : List Entity :=
  match alookup m.entitiesByTag tag with
  | none => []
  | some entityIds =>
      (entityIds.filterMap (fun i => alookup m.entities i)).filter (fun e => e.active)

/-- One step of the intersection loop in `getEntitiesWithComponents`: a missing
component type resets the accumulator to the empty set (the `return` only skips
to the next forEach iteration); the first present type seeds the accumulator;
later present types intersect into it. -/
def interStep (m : EntityManager) (acc : Option (List String)) (c : String) :
    Option (List String) :=
  match alookup m.entitiesByComponent c with
  | none => some []
  | some cids =>
      match acc with
      | none => some cids
      | some cur => some (cur.filter (fun i => cids.contains i))

/-- Mirrors `getEntitiesWithComponents`: empty input short-circuits to `[]`; otherwise
the id intersection is mapped through the primary map, keeping active entities. -/
def EntityManager.getEntitiesWithComponents (m : EntityManager)
    (componentTypes : List String) : List Entity :=
  if componentTypes.length = 0 then []
  else
    match componentTypes.foldl (interStep m) none with
    | none => []
    | some ids =>
        (ids.filterMap (fun i => alookup m.entities i)).filter (fun e => e.active)

/-- Mirrors `scheduleDestroy`: adds to the pending set, nothing else. -/
def EntityManager.scheduleDestroy (m : EntityManager) (entityId : String) : EntityManager :=
  { m with entitiesToDestroy := sadd m.entitiesToDestroy entityId }

/-- Mirrors `processDestructions`: `removeEntity` for each pending id (the loop iterates
the set as it was on entry — `removeEntity` never touches it), then clears. -/
def EntityManager.processDestructions (m : EntityManager) : EntityManager :=
  { m.entitiesToDestroy.foldl (fun acc i => acc.removeEntity i) m with
      entitiesToDestroy := [] }

/-- Mirrors `update(deltaTime)`: processes destructions, then emits `entities:update`
(state-neutral, see `EntityManager`). -/
def EntityManager.update (m : EntityManager) : EntityManager :=
  m.processDestructions

/-- Mirrors `createEntity(components, tags)`: builds `new Entity()` (generated id given
as `gen`), replays components and tags onto it, registers it via `addEntity`,
then emits `entity:created` (state-neutral). -/
def EntityManager.createEntity (m : EntityManager) (gen : String)
    (components : List (String × Cmp)) (tags : List String) : EntityManager × Entity :=
  let entity := mkEntity gen ""
  let entity := components.foldl (fun acc p => acc.addComponent p.1 p.2) entity
  let entity := tags.foldl (fun acc t => acc.addTag t) entity
  (m.addEntity entity, entity)

/-- The calls a client can make against a manager and its entities. The last
four mutate a registered entity in place through the reference `getEntity`
hands out, exactly as gameplay systems do (`Entity.addTag` etc. on a fetched
entity); in the model this rebinds the stored value. -/
inductive Op where
  | create (gen : String) (components : List (String × Cmp)) (tags : List String)
  | add (entity : Entity)
  | remove (entityId : String)
  | schedule (entityId : String)
  | processDest
  | tick
  | tagAdd (entityId : String) (tag : String)
  | tagRemove (entityId : String) (tag : String)
  | compAdd (entityId : String) (componentType : String) (d : Cmp)
  | compRemove (entityId : String) (componentType : String)

/-- Mutate the entity stored under `entityId` in place, if present. -/
def mutateEntity (m : EntityManager) (entityId : String) (f : Entity → Entity) :
    EntityManager :=
  match alookup m.entities entityId with
  | none => m
  | some e => { m with entities := aset m.entities entityId (f e) }

def applyOp (m : EntityManager) : Op → EntityManager
  | .create gen cs ts => (m.createEntity gen cs ts).1
  | .add e => m.addEntity e
  | .remove i => m.removeEntity i
  | .schedule i => m.scheduleDestroy i
  | .processDest => m.processDestructions
  | .tick => m.update
  | .tagAdd i t => mutateEntity m i (fun e => e.addTag t)
  | .tagRemove i t => mutateEntity m i (fun e => e.removeTag t)
  | .compAdd i c d => mutateEntity m i (fun e => e.addComponent c d)
  | .compRemove i c => mutateEntity m i (fun e => e.removeComponent c)

def runOps (m : EntityManager) (ops : List Op) : EntityManager :=
  ops.foldl applyOp m

/- ### Claim C10 -/

/-- Claim C10: on the empty component-type list, `getEntitiesWithComponents`
returns the empty list (the explicit length-0 short-circuit), never the set of
all active entities. -/
theorem getEntitiesWithComponents_nil (m : EntityManager) :
    m.getEntitiesWithComponents [] = [] := rfl

/- ### Claim C2, counterexample -/

/-- A plain active entity with no tags and no components. -/
def plainEnt : Entity :=
  { id := "e1", components := [], tags := [], active := true, destroyed := false }

/-- The manager after registering `plainEnt` and then adding a tag to the
entity itself (as any system holding the entity reference can). -/
def desyncMgr : EntityManager :=
  runOps emptyManager [Op.add plainEnt, Op.tagAdd "e1" "foo"]

/-- Claim C2, counterexample: after `addEntity` the entity-level `addTag` call
is invisible to the tag index — `getEntitiesByTag "foo"` is empty although the
registered entity is active and carries the tag, so the index does not stay
synchronized under tag mutation of registered entities. -/
theorem index_desync_on_late_tag_add :
    desyncMgr.getEntitiesByTag "foo" = []
    ∧ desyncMgr.getEntity "e1" = some (plainEnt.addTag "foo")
    ∧ (plainEnt.addTag "foo").active = true
    ∧ "foo" ∈ (plainEnt.addTag "foo").tags := by
  refine ⟨?_, ?_, ?_, ?_⟩ <;> decide

/- ### More association-list and set lemmas -/

theorem alookup_aset_self {α : Type} (m : List (String × α)) (k : String) (v : α) :
    alookup (aset m k v) k = some v := by
  induction m with
  | nil => simp [aset, alookup]
  | cons p rest ih =>
      obtain ⟨k', v'⟩ := p
      by_cases h : k' = k <;> simp [aset, alookup, h, ih]

theorem alookup_aset_ne {α : Type} (m : List (String × α)) (k t : String) (v : α)
    (h : t ≠ k) : alookup (aset m k v) t = alookup m t := by
  induction m with
  | nil => simp [aset, alookup, Ne.symm h]
  | cons p rest ih =>
      obtain ⟨k', v'⟩ := p
      by_cases hk : k' = k
      · subst hk
        simp [aset, alookup, Ne.symm h]
      · by_cases ht : k' = t <;> simp [aset, alookup, hk, ht, ih, h]

theorem alookup_aremove_ne {α : Type} (m : List (String × α)) (k t : String)
    (h : t ≠ k) : alookup (aremove m k) t = alookup m t := by
  induction m with
  | nil => simp [aremove]
  | cons p rest ih =>
      obtain ⟨k', v'⟩ := p
      by_cases hk : k' = k
      · subst hk
        simp [aremove, alookup, Ne.symm h]
      · by_cases ht : k' = t <;> simp [aremove, alookup, hk, ht, ih, h]

theorem alookup_aremove_self {α : Type} (m : List (String × α)) (k : String)
    (hnd : (m.map Prod.fst).Nodup) : alookup (aremove m k) k = none := by
  induction m with
  | nil => simp [aremove, alookup]
  | cons p rest ih =>
      obtain ⟨k', v'⟩ := p
      by_cases hk : k' = k
      · subst hk
        have : k' ∉ rest.map Prod.fst := (List.nodup_cons.mp (by simpa using hnd)).1
        simpa [aremove] using (alookup_eq_none_iff rest k').mpr this
      · simpa [aremove, alookup, hk] using ih (List.nodup_cons.mp (by simpa using hnd)).2

theorem alookup_aremove_none {α : Type} (m : List (String × α)) (k t : String)
    (h : alookup m t = none) : alookup (aremove m k) t = none := by
  induction m with
  | nil => simp [aremove, alookup]
  | cons p rest ih =>
      obtain ⟨k', v'⟩ := p
      by_cases ht : k' = t
      · simp [alookup, ht] at h
      · by_cases hk : k' = k <;>
          simp_all [aremove, alookup, hk, ht]

theorem alookup_mem {α : Type} (m : List (String × α)) (k : String) (v : α)
    (h : alookup m k = some v) : (k, v) ∈ m := by
  induction m with
  | nil => simp [alookup] at h
  | cons p rest ih =>
      obtain ⟨k', v'⟩ := p
      by_cases hk : k' = k
      · subst hk
        simp [alookup] at h
        simp [h]
      · exact List.mem_cons_of_mem _ (ih (by simpa [alookup, hk] using h))

theorem alookup_of_mem_nodup {α : Type} (m : List (String × α)) (k : String) (v : α)
    (hnd : (m.map Prod.fst).Nodup) (h : (k, v) ∈ m) : alookup m k = some v := by
  induction m with
  | nil => simp at h
  | cons p rest ih =>
      obtain ⟨k', v'⟩ := p
      rcases List.mem_cons.mp h with heq | hrest
      · obtain ⟨h1, h2⟩ := Prod.mk.injEq .. ▸ heq
        simp [alookup, h1.symm, h2]
      · have hk : k' ≠ k := by
          intro hc
          exact (List.nodup_cons.mp (by simpa using hnd)).1
            (hc ▸ List.mem_map_of_mem Prod.fst hrest)
        simpa [alookup, hk] using
          ih (List.nodup_cons.mp (by simpa using hnd)).2 hrest

theorem alookup_isSome_iff {α : Type} (m : List (String × α)) (k : String) :
    (alookup m k).isSome = true ↔ k ∈ m.map Prod.fst := by
  rcases h : alookup m k with _ | v
  · simpa [h] using (alookup_eq_none_iff m k).mp h
  · simpa [h] using List.mem_map_of_mem Prod.fst (alookup_mem m k v h)

theorem keys_aset {α : Type} (m : List (String × α)) (k : String) (v : α) :
    (aset m k v).map Prod.fst
      = if k ∈ m.map Prod.fst then m.map Prod.fst else m.map Prod.fst ++ [k] := by
  induction m with
  | nil => simp [aset]
  | cons p rest ih =>
      obtain ⟨k', v'⟩ := p
      by_cases hk : k' = k
      · simp [aset, hk]
      · by_cases hmem : k ∈ rest.map Prod.fst <;>
          simp [aset, hk, hmem, ih, Ne.symm hk]

theorem aset_keys_nodup {α : Type} (m : List (String × α)) (k : String) (v : α)
    (hnd : (m.map Prod.fst).Nodup) : ((aset m k v).map Prod.fst).Nodup := by
  rw [keys_aset]
  by_cases hmem : k ∈ m.map Prod.fst
  · simpa [hmem] using hnd
  · simp [hmem, List.nodup_append, hnd]

theorem keys_aremove {α : Type} (m : List (String × α)) (k : String) :
    (aremove m k).map Prod.fst = (m.map Prod.fst).erase k := by
  induction m with
  | nil => simp [aremove]
  | cons p rest ih =>
      obtain ⟨k', v'⟩ := p
      by_cases hk : k' = k <;> simp [aremove, hk, List.erase_cons, ih]

theorem aremove_keys_nodup {α : Type} (m : List (String × α)) (k : String)
    (hnd : (m.map Prod.fst).Nodup) : ((aremove m k).map Prod.fst).Nodup := by
  rw [keys_aremove]
  exact hnd.erase k

theorem mem_sadd (s : List String) (x y : String) :
    y ∈ sadd s x ↔ y ∈ s ∨ y = x := by
  by_cases h : x ∈ s
  · constructor
    · intro hy; exact Or.inl (by simpa [sadd, h] using hy)
    · rintro (hy | rfl)
      · simpa [sadd, h] using hy
      · simp [sadd, h]
  · simp [sadd, h]

theorem sadd_nodup (s : List String) (x : String) (hnd : s.Nodup) :
    (sadd s x).Nodup := by
  by_cases h : x ∈ s
  · simpa [sadd, h] using hnd
  · simp [sadd, h, List.nodup_append, hnd]

theorem sadd_idem (s : List String) (x : String) : sadd (sadd s x) x = sadd s x := by
  have hx : x ∈ sadd s x := (mem_sadd s x x).mpr (Or.inr rfl)
  show (if x ∈ sadd s x then sadd s x else sadd s x ++ [x]) = sadd s x
  rw [if_pos hx]

/- ### Index-bucket lemmas -/

theorem bucket_indexAdd (idx : List (String × List String)) (k id t : String) :
    (alookup (indexAdd idx k id) t).getD []
      = if t = k then sadd ((alookup idx k).getD []) id
        else (alookup idx t).getD [] := by
  unfold indexAdd
  by_cases h : t = k
  · subst h
    simp [alookup_aset_self]
  · simp [alookup_aset_ne _ _ _ _ h, h]

theorem keys_indexAdd_nodup (idx : List (String × List String)) (k id : String)
    (hnd : (idx.map Prod.fst).Nodup) : ((indexAdd idx k id).map Prod.fst).Nodup :=
  aset_keys_nodup _ _ _ hnd

theorem bucket_foldl_indexAdd (ts : List String) :
    ∀ (idx : List (String × List String)) (id t : String),
      (alookup (ts.foldl (fun ix tag => indexAdd ix tag id) idx) t).getD []
        = if t ∈ ts then sadd ((alookup idx t).getD []) id
          else (alookup idx t).getD [] := by
  induction ts with
  | nil => intro idx id t; simp
  | cons k rest ih =>
      intro idx id t
      simp only [List.foldl_cons]
      rw [ih (indexAdd idx k id) id t]
      by_cases htk : t = k
      · subst htk
        by_cases hmem : t ∈ rest <;>
          simp [hmem, bucket_indexAdd, sadd_idem]
      · by_cases hmem : t ∈ rest <;>
          simp [hmem, htk, bucket_indexAdd]

theorem keys_foldl_indexAdd_nodup (ts : List String) :
    ∀ (idx : List (String × List String)) (id : String),
      (idx.map Prod.fst).Nodup →
      ((ts.foldl (fun ix tag => indexAdd ix tag id) idx).map Prod.fst).Nodup := by
  induction ts with
  | nil => intro idx id h; simpa using h
  | cons k rest ih =>
      intro idx id h
      simpa using ih (indexAdd idx k id) id (keys_indexAdd_nodup idx k id h)

theorem bucket_indexRemove (idx : List (String × List String)) (k id t : String)
    (hnd : (idx.map Prod.fst).Nodup) :
    (alookup (indexRemove idx k id) t).getD []
      = if t = k then ((alookup idx k).getD []).erase id
        else (alookup idx t).getD [] := by
  unfold indexRemove
  rcases h : alookup idx k with _ | bucket
  · by_cases htk : t = k
    · subst htk; simp [h]
    · simp [htk]
  · by_cases hemp : (bucket.erase id).isEmpty
    · have hnil : bucket.erase id = [] := by simpa using hemp
      by_cases htk : t = k
      · subst htk
        simp [hemp, alookup_aremove_self idx t hnd, h, hnil]
      · simp [hemp, alookup_aremove_ne idx k t htk, htk]
    · by_cases htk : t = k
      · subst htk
        simp [hemp, alookup_aset_self, h]
      · simp [hemp, alookup_aset_ne _ _ _ _ htk, htk]

theorem keys_indexRemove_nodup (idx : List (String × List String)) (k id : String)
    (hnd : (idx.map Prod.fst).Nodup) : ((indexRemove idx k id).map Prod.fst).Nodup := by
  unfold indexRemove
  rcases alookup idx k with _ | bucket
  · exact hnd
  · by_cases hemp : (bucket.erase id).isEmpty
    · simpa [hemp] using aremove_keys_nodup idx k hnd
    · simpa [hemp] using aset_keys_nodup idx k (bucket.erase id) hnd

theorem bucket_foldl_indexRemove (ts : List String) :
    ∀ (idx : List (String × List String)) (id t : String),
      ts.Nodup → (idx.map Prod.fst).Nodup →
      (alookup (ts.foldl (fun ix tag => indexRemove ix tag id) idx) t).getD []
        = if t ∈ ts then ((alookup idx t).getD []).erase id
          else (alookup idx t).getD [] := by
  induction ts with
  | nil => intro idx id t _ _; simp
  | cons k rest ih =>
      intro idx id t hts hidx
      have hknot : k ∉ rest := (List.nodup_cons.mp hts).1
      have hrest : rest.Nodup := (List.nodup_cons.mp hts).2
      have hmid : ((indexRemove idx k id).map Prod.fst).Nodup :=
        keys_indexRemove_nodup idx k id hidx
      simp only [List.foldl_cons]
      rw [ih (indexRemove idx k id) id t hrest hmid]
      by_cases htk : t = k
      · subst htk
        simp [hknot, bucket_indexRemove idx t id t hidx]
      · by_cases hmem : t ∈ rest <;>
          simp [hmem, htk, bucket_indexRemove idx k id t hidx]

theorem keys_foldl_indexRemove_nodup (ts : List String) :
    ∀ (idx : List (String × List String)) (id : String),
      (idx.map Prod.fst).Nodup →
      ((ts.foldl (fun ix tag => indexRemove ix tag id) idx).map Prod.fst).Nodup := by
  induction ts with
  | nil => intro idx id h; simpa using h
  | cons k rest ih =>
      intro idx id h
      simpa using ih (indexRemove idx k id) id (keys_indexRemove_nodup idx k id h)

/- ### The index-consistency invariant (spec §3, "EntityManager indices") -/

/-- The well-formedness every manager reached through fresh-id registrations
and removals satisfies: unique keys everywhere, set/map fields of stored
entities duplicate-free, and both indices exactly derivable from the live
entities (spec P4's cache-coherence reading). -/
structure Inv (m : EntityManager) : Prop where
  entKeys : (m.entities.map Prod.fst).Nodup
  entWF : ∀ p ∈ m.entities, p.2.tags.Nodup ∧ (p.2.components.map Prod.fst).Nodup
  tagKeys : (m.entitiesByTag.map Prod.fst).Nodup
  compKeys : (m.entitiesByComponent.map Prod.fst).Nodup
  tagEq : ∀ t, (alookup m.entitiesByTag t).getD []
      = (m.entities.filter (fun p => decide (t ∈ p.2.tags))).map Prod.fst
  compEq : ∀ c, (alookup m.entitiesByComponent c).getD []
      = (m.entities.filter (fun p => p.2.hasComponent c)).map Prod.fst

theorem Inv_empty : Inv emptyManager := by
  refine ⟨?_, ?_, ?_, ?_, ?_, ?_⟩ <;> simp [emptyManager, alookup]

theorem Inv_addEntity (m : EntityManager) (e : Entity) (hInv : Inv m)
    (hfresh : alookup m.entities e.id = none)
    (htags : e.tags.Nodup) (hcomps : (e.components.map Prod.fst).Nodup) :
    Inv (m.addEntity e) := by
  have hents : (m.addEntity e).entities = m.entities ++ [(e.id, e)] :=
    aset_of_lookup_none m.entities e.id e hfresh
  have hkeyfresh : e.id ∉ m.entities.map Prod.fst := (alookup_eq_none_iff _ _).mp hfresh
  have hsubtag : ∀ (P : String × Entity → Bool) (a : String),
      a ∈ (m.entities.filter P).map Prod.fst → a ∈ m.entities.map Prod.fst := by
    intro P a ha
    rcases List.mem_map.mp ha with ⟨p, hp, rfl⟩
    exact List.mem_map_of_mem Prod.fst (List.mem_filter.mp hp).1
  refine ⟨?_, ?_, ?_, ?_, ?_, ?_⟩
  · rw [hents]
    simp only [List.map_append, List.map_cons, List.map_nil]
    rw [List.nodup_append]
    refine ⟨hInv.entKeys, by simp, ?_⟩
    intro a ha hb
    simp only [List.mem_singleton] at hb
    exact hkeyfresh (hb ▸ ha)
  · rw [hents]
    intro p hp
    rcases List.mem_append.mp hp with hold | hnew
    · exact hInv.entWF p hold
    · have : p = (e.id, e) := by simpa using hnew
      rw [this]
      exact ⟨htags, hcomps⟩
  · exact keys_foldl_indexAdd_nodup e.tags m.entitiesByTag e.id hInv.tagKeys
  · exact keys_foldl_indexAdd_nodup (e.components.map Prod.fst)
      m.entitiesByComponent e.id hInv.compKeys
  · intro t
    have hb : (alookup (m.addEntity e).entitiesByTag t).getD []
        = if t ∈ e.tags then sadd ((alookup m.entitiesByTag t).getD []) e.id
          else (alookup m.entitiesByTag t).getD [] :=
      bucket_foldl_indexAdd e.tags m.entitiesByTag e.id t
    rw [hb, hInv.tagEq t, hents, List.filter_append, List.map_append]
    by_cases hmem : t ∈ e.tags
    · have hfresh2 : e.id ∉ (m.entities.filter
          (fun p => decide (t ∈ p.2.tags))).map Prod.fst := by
        intro hc; exact hkeyfresh (hsubtag _ _ hc)
      simp [hmem, sadd, hfresh2]
    · simp [hmem]
  · intro c
    have hb : (alookup (m.addEntity e).entitiesByComponent c).getD []
        = if c ∈ e.components.map Prod.fst then
            sadd ((alookup m.entitiesByComponent c).getD []) e.id
          else (alookup m.entitiesByComponent c).getD [] :=
      bucket_foldl_indexAdd (e.components.map Prod.fst) m.entitiesByComponent e.id c
    rw [hb, hInv.compEq c, hents, List.filter_append, List.map_append]
    by_cases hmem : c ∈ e.components.map Prod.fst
    · have hfresh2 : e.id ∉ (m.entities.filter
          (fun p => p.2.hasComponent c)).map Prod.fst := by
        intro hc; exact hkeyfresh (hsubtag _ _ hc)
      have hc : e.hasComponent c = true := (alookup_isSome_iff _ _).mpr hmem
      have hfilter : List.filter (fun p : String × Entity => p.2.hasComponent c)
          [(e.id, e)] = [(e.id, e)] := by simp [hc]
      rw [hfilter]
      simp [hmem, sadd, hfresh2]
    · have hc : e.hasComponent c = false := by
        rcases hh : (alookup e.components c) with _ | d
        · simp [Entity.hasComponent, hh]
        · exact absurd (List.mem_map_of_mem Prod.fst (alookup_mem _ _ _ hh)) hmem
      have hfilter : List.filter (fun p : String × Entity => p.2.hasComponent c)
          [(e.id, e)] = [] := by simp [hc]
      rw [hfilter]
      simp [hmem]

theorem aremove_subset {α : Type} (l : List (String × α)) (k : String)
    (p : String × α) (hp : p ∈ aremove l k) : p ∈ l := by
  induction l with
  | nil => simp [aremove] at hp
  | cons q rest ih =>
      obtain ⟨k', v'⟩ := q
      by_cases hk : k' = k
      · exact List.mem_cons_of_mem _ (by simpa [aremove, hk] using hp)
      · rcases List.mem_cons.mp (by simpa [aremove, hk] using hp) with heq | hrest
        · exact heq ▸ List.mem_cons_self _ _
        · exact List.mem_cons_of_mem _ (ih hrest)

theorem filter_aremove_of_true {α : Type} (l : List (String × α)) (k : String) (v : α)
    (P : String × α → Bool) (hnd : (l.map Prod.fst).Nodup)
    (h : alookup l k = some v) (hP : P (k, v) = true) :
    ((aremove l k).filter P).map Prod.fst = ((l.filter P).map Prod.fst).erase k := by
  induction l with
  | nil => simp [alookup] at h
  | cons q rest ih =>
      obtain ⟨k', v'⟩ := q
      by_cases hk : k' = k
      · subst hk
        have hv : v' = v := by simpa [alookup] using h
        subst hv
        simp [aremove, List.filter_cons, hP, List.erase_cons]
      · have hrest : alookup rest k = some v := by simpa [alookup, hk] using h
        have hnd' : (rest.map Prod.fst).Nodup := (List.nodup_cons.mp (by simpa using hnd)).2
        rcases hq : P (k', v') with _ | _
        · simp [aremove, hk, List.filter_cons, hq, ih hnd' hrest]
        · simp [aremove, hk, List.filter_cons, hq, List.erase_cons, ih hnd' hrest]

theorem filter_aremove_of_false {α : Type} (l : List (String × α)) (k : String) (v : α)
    (P : String × α → Bool) (h : alookup l k = some v) (hP : P (k, v) = false) :
    (aremove l k).filter P = l.filter P := by
  induction l with
  | nil => simp [alookup] at h
  | cons q rest ih =>
      obtain ⟨k', v'⟩ := q
      by_cases hk : k' = k
      · subst hk
        have hv : v' = v := by simpa [alookup] using h
        subst hv
        simp [aremove, List.filter_cons, hP]
      · have hrest : alookup rest k = some v := by simpa [alookup, hk] using h
        rcases hq : P (k', v') with _ | _ <;>
          simp [aremove, hk, List.filter_cons, hq, ih hrest]

theorem Inv_removeEntity (m : EntityManager) (i : String) (hInv : Inv m) :
    Inv (m.removeEntity i) := by
  unfold EntityManager.removeEntity
  rcases h : alookup m.entities i with _ | e
  · exact hInv
  · have hmem : (i, e) ∈ m.entities := alookup_mem _ _ _ h
    have hwf := hInv.entWF (i, e) hmem
    refine ⟨?_, ?_, ?_, ?_, ?_, ?_⟩
    · rw [show (aremove m.entities i).map Prod.fst
          = (m.entities.map Prod.fst).erase i from keys_aremove m.entities i]
      exact hInv.entKeys.erase i
    · intro p hp
      exact hInv.entWF p (aremove_subset m.entities i p hp)
    · exact keys_foldl_indexRemove_nodup e.tags m.entitiesByTag i hInv.tagKeys
    · exact keys_foldl_indexRemove_nodup (e.components.map Prod.fst)
        m.entitiesByComponent i hInv.compKeys
    · intro t
      rw [bucket_foldl_indexRemove e.tags m.entitiesByTag i t hwf.1 hInv.tagKeys,
        hInv.tagEq t]
      by_cases hmemt : t ∈ e.tags
      · have := filter_aremove_of_true m.entities i e
          (fun p => decide (t ∈ p.2.tags)) hInv.entKeys h (by simpa using hmemt)
        simp [hmemt, this]
      · have := filter_aremove_of_false m.entities i e
          (fun p => decide (t ∈ p.2.tags)) h (by simpa using hmemt)
        simp [hmemt, this]
    · intro c
      rw [bucket_foldl_indexRemove (e.components.map Prod.fst)
          m.entitiesByComponent i c hwf.2 hInv.compKeys, hInv.compEq c]
      by_cases hmemc : c ∈ e.components.map Prod.fst
      · have hc : e.hasComponent c = true := (alookup_isSome_iff _ _).mpr hmemc
        have := filter_aremove_of_true m.entities i e
          (fun p => p.2.hasComponent c) hInv.entKeys h hc
        simp [hmemc, this]
      · have hc : e.hasComponent c = false := by
          rcases hh : (alookup e.components c) with _ | d
          · simp [Entity.hasComponent, hh]
          · exact absurd (List.mem_map_of_mem Prod.fst (alookup_mem _ _ _ hh)) hmemc
        have := filter_aremove_of_false m.entities i e
          (fun p => p.2.hasComponent c) h hc
        simp [hmemc, this]

theorem Inv_scheduleDestroy (m : EntityManager) (i : String) (hInv : Inv m) :
    Inv (m.scheduleDestroy i) :=
  ⟨hInv.entKeys, hInv.entWF, hInv.tagKeys, hInv.compKeys, hInv.tagEq, hInv.compEq⟩

theorem Inv_foldRemove (l : List String) :
    ∀ (m : EntityManager), Inv m →
      Inv (l.foldl (fun acc j => acc.removeEntity j) m) := by
  induction l with
  | nil => intro m h; simpa using h
  | cons j rest ih =>
      intro m h
      simpa using ih (m.removeEntity j) (Inv_removeEntity m j h)

theorem Inv_processDestructions (m : EntityManager) (hInv : Inv m) :
    Inv m.processDestructions :=
  let h := Inv_foldRemove m.entitiesToDestroy m hInv
  ⟨h.entKeys, h.entWF, h.tagKeys, h.compKeys, h.tagEq, h.compEq⟩

theorem foldl_aset_keys_nodup {α : Type} (l : List (String × α)) :
    ∀ (m : List (String × α)), (m.map Prod.fst).Nodup →
      ((l.foldl (fun acc p => aset acc p.1 p.2) m).map Prod.fst).Nodup := by
  induction l with
  | nil => intro m h; simpa using h
  | cons p rest ih =>
      intro m h
      simpa using ih (aset m p.1 p.2) (aset_keys_nodup m p.1 p.2 h)

theorem foldl_sadd_nodup (l : List String) :
    ∀ (s : List String), s.Nodup → (l.foldl (fun acc t => sadd acc t) s).Nodup := by
  induction l with
  | nil => intro s h; simpa using h
  | cons t rest ih =>
      intro s h
      simpa using ih (sadd s t) (sadd_nodup s t h)

/- ### Validity of call sequences -/

/-- Freshness side conditions: a `create` call's generated id, and an
`addEntity` call's entity, must be new to the manager (which the
time-and-random `generateId` guarantees for all practical runs); an externally
built entity's tag set and component map are duplicate-free because JS Sets
and Maps cannot hold duplicates. All other calls are unconditional. -/
def validOp (m : EntityManager) : Op → Bool
  | .create gen _ _ => (alookup m.entities gen).isNone
  | .add e => (alookup m.entities e.id).isNone
      && decide e.tags.Nodup && decide (e.components.map Prod.fst).Nodup
  | _ => true

def validOps : EntityManager → List Op → Bool
  | _, [] => true
  | m, op :: rest => validOp m op && validOps (applyOp m op) rest

/-- The calls of the manager's own lifecycle API, i.e. the claim without
entity-level tag/component mutation of registered entities. -/
def structuralOp : Op → Bool
  | .tagAdd _ _ => false
  | .tagRemove _ _ => false
  | .compAdd _ _ _ => false
  | .compRemove _ _ => false
  | _ => true

theorem Inv_applyOp (m : EntityManager) (op : Op) (hInv : Inv m)
    (hv : validOp m op = true) (hs : structuralOp op = true) :
    Inv (applyOp m op) := by
  cases op with
  | create gen cs ts =>
      have hfresh : alookup m.entities gen = none := by
        simpa [validOp, Option.isNone_iff_eq_none] using hv
      show Inv (m.addEntity
        (ts.foldl (fun acc t => acc.addTag t)
          (cs.foldl (fun acc p => acc.addComponent p.1 p.2) (mkEntity gen ""))))
      have hmk : mkEntity gen ""
          = { id := gen, components := [], tags := [], active := true,
              destroyed := false } := by simp [mkEntity]
      have hcs : cs.foldl (fun acc p => acc.addComponent p.1 p.2) (mkEntity gen "")
          = { id := gen, components := cs.foldl (fun acc p => aset acc p.1 p.2) [],
              tags := [], active := true, destroyed := false } := by
        rw [hmk, foldl_addComponent _ _ (by rfl)]
      have hent : ts.foldl (fun acc t => acc.addTag t)
            (cs.foldl (fun acc p => acc.addComponent p.1 p.2) (mkEntity gen ""))
          = { id := gen, components := cs.foldl (fun acc p => aset acc p.1 p.2) [],
              tags := ts.foldl (fun acc t => sadd acc t) [], active := true,
              destroyed := false } := by
        rw [hcs, foldl_addTag]
      rw [hent]
      exact Inv_addEntity m _ hInv hfresh
        (foldl_sadd_nodup ts [] (by simp))
        (foldl_aset_keys_nodup cs [] (by simp))
  | add e =>
      have hv' := hv
      simp only [validOp, Bool.and_eq_true, Option.isNone_iff_eq_none,
        decide_eq_true_eq] at hv'
      exact Inv_addEntity m e hInv hv'.1.1 hv'.1.2 hv'.2
  | remove i => exact Inv_removeEntity m i hInv
  | schedule i => exact Inv_scheduleDestroy m i hInv
  | processDest => exact Inv_processDestructions m hInv
  | tick => exact Inv_processDestructions m hInv
  | tagAdd i t => simp [structuralOp] at hs
  | tagRemove i t => simp [structuralOp] at hs
  | compAdd i c d => simp [structuralOp] at hs
  | compRemove i c => simp [structuralOp] at hs

theorem Inv_runOps (ops : List Op) :
    ∀ (m : EntityManager), Inv m → validOps m ops = true →
      (∀ op ∈ ops, structuralOp op = true) → Inv (runOps m ops) := by
  induction ops with
  | nil => intro m h _ _; simpa [runOps] using h
  | cons op rest ih =>
      intro m h hv hs
      simp only [validOps, Bool.and_eq_true] at hv
      have h1 : Inv (applyOp m op) :=
        Inv_applyOp m op h hv.1 (hs op (List.mem_cons_self _ _))
      have h2 := ih (applyOp m op) h1 hv.2
        (fun o ho => hs o (List.mem_cons_of_mem _ ho))
      simpa [runOps] using h2

/- ### Query characterizations under the invariant -/

theorem contains_iff_mem (l : List String) (x : String) :
    l.contains x = true ↔ x ∈ l := by
  induction l with
  | nil => simp
  | cons a rest ih => by_cases h : x = a <;> simp [h, ih]

theorem mem_tagBucket_iff (m : EntityManager) (hInv : Inv m) (t i : String)
    (e : Entity) (hie : alookup m.entities i = some e) :
    i ∈ (alookup m.entitiesByTag t).getD [] ↔ t ∈ e.tags := by
  rw [hInv.tagEq t]
  constructor
  · intro hib
    rcases List.mem_map.mp hib with ⟨⟨i', e'⟩, hpf, heq⟩
    simp only at heq
    rw [heq] at hpf
    have hlook : alookup m.entities i = some e' :=
      alookup_of_mem_nodup _ _ _ hInv.entKeys (List.mem_filter.mp hpf).1
    have he : e' = e := by
      have := hlook.symm.trans hie
      simpa using this
    have htag := (List.mem_filter.mp hpf).2
    simpa [he] using htag
  · intro htag
    exact List.mem_map_of_mem Prod.fst
      (List.mem_filter.mpr ⟨alookup_mem _ _ _ hie, by simpa using htag⟩)

theorem mem_compBucket_iff (m : EntityManager) (hInv : Inv m) (c i : String)
    (e : Entity) (hie : alookup m.entities i = some e) :
    i ∈ (alookup m.entitiesByComponent c).getD [] ↔ e.hasComponent c = true := by
  rw [hInv.compEq c]
  constructor
  · intro hib
    rcases List.mem_map.mp hib with ⟨⟨i', e'⟩, hpf, heq⟩
    simp only at heq
    rw [heq] at hpf
    have hlook : alookup m.entities i = some e' :=
      alookup_of_mem_nodup _ _ _ hInv.entKeys (List.mem_filter.mp hpf).1
    have he : e' = e := by
      have := hlook.symm.trans hie
      simpa using this
    have hc := (List.mem_filter.mp hpf).2
    simpa [he] using hc
  · intro hc
    exact List.mem_map_of_mem Prod.fst
      (List.mem_filter.mpr ⟨alookup_mem _ _ _ hie, hc⟩)

theorem getEntitiesByTag_eq (m : EntityManager) (t : String) :
    m.getEntitiesByTag t
      = (((alookup m.entitiesByTag t).getD []).filterMap
          (fun i => alookup m.entities i)).filter (fun e => e.active) := by
  unfold EntityManager.getEntitiesByTag
  rcases alookup m.entitiesByTag t with _ | ids <;> simp

theorem mem_getEntitiesByTag_iff (m : EntityManager) (hInv : Inv m) (t : String)
    (e : Entity) :
    e ∈ m.getEntitiesByTag t
      ↔ (∃ i, alookup m.entities i = some e) ∧ e.active = true ∧ t ∈ e.tags := by
  rw [getEntitiesByTag_eq]
  constructor
  · intro he
    have h1 := List.mem_filter.mp he
    rcases List.mem_filterMap.mp h1.1 with ⟨i, hib, hie⟩
    exact ⟨⟨i, hie⟩, h1.2, (mem_tagBucket_iff m hInv t i e hie).mp hib⟩
  · rintro ⟨⟨i, hie⟩, hact, htag⟩
    exact List.mem_filter.mpr
      ⟨List.mem_filterMap.mpr ⟨i, (mem_tagBucket_iff m hInv t i e hie).mpr htag, hie⟩,
        hact⟩

theorem interStep_bucket_none (m : EntityManager) (acc : Option (List String))
    (c : String) (hb : alookup m.entitiesByComponent c = none) :
    interStep m acc c = some [] := by
  unfold interStep
  rw [hb]

theorem interStep_none_some (m : EntityManager) (c : String) (cids : List String)
    (hb : alookup m.entitiesByComponent c = some cids) :
    interStep m none c = some cids := by
  unfold interStep
  rw [hb]

theorem interStep_some_some (m : EntityManager) (l : List String) (c : String)
    (cids : List String) (hb : alookup m.entitiesByComponent c = some cids) :
    interStep m (some l) c = some (l.filter (fun i => cids.contains i)) := by
  unfold interStep
  rw [hb]

theorem fold_interStep_some (m : EntityManager) (cs : List String) :
    ∀ (l : List String), ∃ r, cs.foldl (interStep m) (some l) = some r := by
  induction cs with
  | nil => intro l; exact ⟨l, rfl⟩
  | cons c rest ih =>
      intro l
      simp only [List.foldl_cons]
      rcases hb : alookup m.entitiesByComponent c with _ | cids
      · rw [interStep_bucket_none m (some l) c hb]
        exact ih []
      · rw [interStep_some_some m l c cids hb]
        exact ih (l.filter (fun i => cids.contains i))

theorem mem_fold_interStep (m : EntityManager) (cs : List String) :
    ∀ (l : List String) (i : String),
      i ∈ (cs.foldl (interStep m) (some l)).getD []
        ↔ i ∈ l ∧ ∀ c ∈ cs, i ∈ (alookup m.entitiesByComponent c).getD [] := by
  induction cs with
  | nil => intro l i; simp
  | cons c rest ih =>
      intro l i
      simp only [List.foldl_cons]
      rcases hb : alookup m.entitiesByComponent c with _ | cids
      · rw [interStep_bucket_none m (some l) c hb, ih [] i]
        simp [hb]
      · rw [interStep_some_some m l c cids hb,
          ih (l.filter (fun j => cids.contains j)) i]
        constructor
        · rintro ⟨hif, hall⟩
          have h1 := List.mem_filter.mp hif
          refine ⟨h1.1, ?_⟩
          intro c' hc'
          rcases List.mem_cons.mp hc' with rfl | hc'
          · simpa [hb] using (contains_iff_mem cids i).mp h1.2
          · exact hall c' hc'
        · rintro ⟨hil, hall⟩
          have hic : i ∈ cids := by
            simpa [hb] using hall c (List.mem_cons_self _ _)
          refine ⟨List.mem_filter.mpr ⟨hil, (contains_iff_mem cids i).mpr hic⟩, ?_⟩
          intro c' hc'
          exact hall c' (List.mem_cons_of_mem _ hc')

theorem mem_getEntitiesWithComponents_iff (m : EntityManager) (hInv : Inv m)
    (cs : List String) (hcs : cs ≠ []) (e : Entity) :
    e ∈ m.getEntitiesWithComponents cs
      ↔ (∃ i, alookup m.entities i = some e) ∧ e.active = true
        ∧ ∀ c ∈ cs, e.hasComponent c = true := by
  rcases List.exists_cons_of_ne_nil hcs with ⟨c0, cs', rfl⟩
  have hmem0 : ∀ (i : String),
      i ∈ ((c0 :: cs').foldl (interStep m) none).getD []
        ↔ ∀ c ∈ c0 :: cs', i ∈ (alookup m.entitiesByComponent c).getD [] := by
    intro i
    simp only [List.foldl_cons]
    rcases hb : alookup m.entitiesByComponent c0 with _ | cids
    · rw [interStep_bucket_none m none c0 hb, mem_fold_interStep m cs' [] i]
      simp [hb]
    · rw [interStep_none_some m c0 cids hb, mem_fold_interStep m cs' cids i]
      constructor
      · rintro ⟨hi0, hall⟩
        intro c hc
        rcases List.mem_cons.mp hc with rfl | hc
        · simpa [hb] using hi0
        · exact hall c hc
      · intro hall
        refine ⟨by simpa [hb] using hall c0 (List.mem_cons_self _ _), ?_⟩
        intro c hc
        exact hall c (List.mem_cons_of_mem _ hc)
  have hsome : ∃ r, (c0 :: cs').foldl (interStep m) none = some r := by
    simp only [List.foldl_cons]
    rcases hb : alookup m.entitiesByComponent c0 with _ | cids
    · rw [interStep_bucket_none m none c0 hb]
      exact fold_interStep_some m cs' []
    · rw [interStep_none_some m c0 cids hb]
      exact fold_interStep_some m cs' cids
  rcases hsome with ⟨r, hr⟩
  have hgetter : m.getEntitiesWithComponents (c0 :: cs')
      = (r.filterMap (fun i => alookup m.entities i)).filter (fun e => e.active) := by
    unfold EntityManager.getEntitiesWithComponents
    rw [hr]
    simp
  have hrd : ((c0 :: cs').foldl (interStep m) none).getD [] = r := by
    rw [hr]
    rfl
  rw [hrd] at hmem0
  rw [hgetter]
  constructor
  · intro he
    have h1 := List.mem_filter.mp he
    rcases List.mem_filterMap.mp h1.1 with ⟨i, hib, hie⟩
    refine ⟨⟨i, hie⟩, h1.2, ?_⟩
    intro c hc
    exact (mem_compBucket_iff m hInv c i e hie).mp ((hmem0 i).mp hib c hc)
  · rintro ⟨⟨i, hie⟩, hact, hall⟩
    refine List.mem_filter.mpr ⟨List.mem_filterMap.mpr ⟨i, ?_, hie⟩, hact⟩
    exact (hmem0 i).mpr
      (fun c hc => (mem_compBucket_iff m hInv c i e hie).mpr (hall c hc))

/- ### Claim C2, amended -/

/-- Claim C2 (amended): for every sequence of manager-lifecycle calls
(`createEntity` with fresh generated ids, `addEntity` of fresh well-formed
entities, `removeEntity`, `scheduleDestroy`, `processDestructions`, `update`)
— but not entity-level tag/component mutation of already-registered entities,
which the counterexample shows desynchronizes the cache — `getEntitiesByTag t`
is exactly the active registered entities whose tag set contains `t`, and
`getEntitiesWithComponents cs` (`cs ≠ []`) is exactly the active registered
entities possessing every component type in `cs`. -/
theorem index_consistency_structural_ops (ops : List Op)
    (hv : validOps emptyManager ops = true)
    (hs : ∀ op ∈ ops, structuralOp op = true) :
    (∀ (t : String) (e : Entity),
        e ∈ (runOps emptyManager ops).getEntitiesByTag t
          ↔ (∃ i, alookup (runOps emptyManager ops).entities i = some e)
            ∧ e.active = true ∧ t ∈ e.tags)
    ∧ (∀ (cs : List String) (e : Entity), cs ≠ [] →
        (e ∈ (runOps emptyManager ops).getEntitiesWithComponents cs
          ↔ (∃ i, alookup (runOps emptyManager ops).entities i = some e)
            ∧ e.active = true ∧ ∀ c ∈ cs, e.hasComponent c = true)) := by
  have hInv := Inv_runOps ops emptyManager Inv_empty hv hs
  exact ⟨fun t e => mem_getEntitiesByTag_iff _ hInv t e,
    fun cs e hcs => mem_getEntitiesWithComponents_iff _ hInv cs hcs e⟩

def heroEnt : Entity :=
  { id := "h1", components := [("health", [("hp", 20)])], tags := ["hero"],
    active := true, destroyed := false }

def mobEnt : Entity :=
  { id := "m1", components := [], tags := ["mob"], active := true, destroyed := false }

/-- Witness for the amended C2 on a concrete three-call history. -/
theorem index_consistency_structural_ops_witness :
    heroEnt ∈ (runOps emptyManager
        [Op.add heroEnt, Op.add mobEnt, Op.remove "m1"]).getEntitiesByTag "hero"
      ↔ (∃ i, alookup (runOps emptyManager
          [Op.add heroEnt, Op.add mobEnt, Op.remove "m1"]).entities i = some heroEnt)
        ∧ heroEnt.active = true ∧ "hero" ∈ heroEnt.tags :=
  (index_consistency_structural_ops [Op.add heroEnt, Op.add mobEnt, Op.remove "m1"]
    (by decide) (by decide)).1 "hero" heroEnt

/- ### Claim C5 -/

theorem removeEntity_lookup_none (m : EntityManager) (j i : String)
    (h : alookup m.entities i = none) :
    alookup (m.removeEntity j).entities i = none := by
  unfold EntityManager.removeEntity
  rcases alookup m.entities j with _ | e
  · exact h
  · exact alookup_aremove_none m.entities j i h

theorem removeEntity_self_none (m : EntityManager) (i : String)
    (hnd : (m.entities.map Prod.fst).Nodup) :
    alookup (m.removeEntity i).entities i = none := by
  unfold EntityManager.removeEntity
  rcases h : alookup m.entities i with _ | e
  · exact h
  · exact alookup_aremove_self m.entities i hnd

theorem foldRemove_lookup_none (l : List String) :
    ∀ (m : EntityManager) (i : String), alookup m.entities i = none →
      alookup ((l.foldl (fun acc j => acc.removeEntity j) m)).entities i = none := by
  induction l with
  | nil => intro m i h; simpa using h
  | cons j rest ih =>
      intro m i h
      simpa using ih (m.removeEntity j) i (removeEntity_lookup_none m j i h)

theorem foldRemove_mem_none (l : List String) :
    ∀ (m : EntityManager) (i : String), Inv m → i ∈ l →
      alookup ((l.foldl (fun acc j => acc.removeEntity j) m)).entities i = none := by
  induction l with
  | nil => intro m i _ hmem; simp at hmem
  | cons j rest ih =>
      intro m i hInv hmem
      by_cases hij : i = j
      · subst hij
        have h0 := removeEntity_self_none m i hInv.entKeys
        simpa using foldRemove_lookup_none rest (m.removeEntity i) i h0
      · have hmem' : i ∈ rest := by
          rcases List.mem_cons.mp hmem with heq | hr
          · exact absurd heq hij
          · exact hr
        simpa using ih (m.removeEntity j) i (Inv_removeEntity m j hInv) hmem'

theorem bucket_not_mem_of_lookup_none (m : EntityManager) (i : String)
    (hInv : Inv m) (h : alookup m.entities i = none) :
    (∀ t, i ∉ (alookup m.entitiesByTag t).getD [])
    ∧ (∀ c, i ∉ (alookup m.entitiesByComponent c).getD []) := by
  have hkeys : i ∉ m.entities.map Prod.fst := (alookup_eq_none_iff _ _).mp h
  constructor
  · intro t hix
    rw [hInv.tagEq t] at hix
    rcases List.mem_map.mp hix with ⟨p, hpf, heq⟩
    exact hkeys (heq ▸ List.mem_map_of_mem Prod.fst (List.mem_filter.mp hpf).1)
  · intro c hix
    rw [hInv.compEq c] at hix
    rcases List.mem_map.mp hix with ⟨p, hpf, heq⟩
    exact hkeys (heq ▸ List.mem_map_of_mem Prod.fst (List.mem_filter.mp hpf).1)

/-- Claim C5: scheduling a destruction leaves `getEntity` untouched; the
subsequent `processDestructions()` (equally `update()`, which starts with it)
removes the entity from the primary map and from every tag-index and
component-index bucket. -/
theorem deferred_destruction (m : EntityManager) (i : String) (e : Entity)
    (hInv : Inv m) (h : m.getEntity i = some e) :
    (m.scheduleDestroy i).getEntity i = some e
    ∧ ((m.scheduleDestroy i).processDestructions).getEntity i = none
    ∧ (∀ t, i ∉ (alookup
        ((m.scheduleDestroy i).processDestructions).entitiesByTag t).getD [])
    ∧ (∀ c, i ∉ (alookup
        ((m.scheduleDestroy i).processDestructions).entitiesByComponent c).getD [])
    ∧ ((m.scheduleDestroy i).update).getEntity i = none := by
  have hInv' : Inv (m.scheduleDestroy i) := Inv_scheduleDestroy m i hInv
  have hmemsched : i ∈ (m.scheduleDestroy i).entitiesToDestroy :=
    (mem_sadd m.entitiesToDestroy i i).mpr (Or.inr rfl)
  have hfold : alookup (((m.scheduleDestroy i).entitiesToDestroy.foldl
      (fun acc j => acc.removeEntity j) (m.scheduleDestroy i))).entities i = none :=
    foldRemove_mem_none _ _ i hInv' hmemsched
  have hInvFold : Inv ((m.scheduleDestroy i).entitiesToDestroy.foldl
      (fun acc j => acc.removeEntity j) (m.scheduleDestroy i)) :=
    Inv_foldRemove _ _ hInv'
  have hbuckets := bucket_not_mem_of_lookup_none _ i hInvFold hfold
  exact ⟨h, hfold, hbuckets.1, hbuckets.2, hfold⟩

/-- The concrete manager used to witness C5: one registered hero entity. -/
def mgrC5 : EntityManager := runOps emptyManager [Op.add heroEnt]

/-- Witness for C5 on `mgrC5`. -/
theorem deferred_destruction_witness :
    (mgrC5.scheduleDestroy "h1").getEntity "h1" = some heroEnt
    ∧ ((mgrC5.scheduleDestroy "h1").processDestructions).getEntity "h1" = none
    ∧ "h1" ∉ (alookup
        ((mgrC5.scheduleDestroy "h1").processDestructions).entitiesByTag "hero").getD []
    ∧ "h1" ∉ (alookup
        ((mgrC5.scheduleDestroy "h1").processDestructions).entitiesByComponent
          "health").getD []
    ∧ ((mgrC5.scheduleDestroy "h1").update).getEntity "h1" = none := by
  have hthm := deferred_destruction mgrC5 "h1" heroEnt
    (Inv_runOps [Op.add heroEnt] emptyManager Inv_empty (by decide) (by decide))
    (by decide)
  exact ⟨hthm.1, hthm.2.1, hthm.2.2.1 "hero", hthm.2.2.2.1 "health", hthm.2.2.2.2⟩

/- ### Heap model of component storage (Claim C7)

The pure `Entity` model above cannot express JS aliasing, so the spread-copy
in `addComponent` (`this.components.set(componentType, { ...componentData })`)
is re-verified on an explicit heap: objects live at numeric references, a
component slot holds a reference, and mutation of the caller's object is a
field write at its reference. -/

/-- A JS value stored in an object field: a primitive or a reference
(the latter is what makes the copy shallow). -/
inductive JVal where
  | num (n : Nat)
  | ref (r : Nat)
deriving Repr, DecidableEq

/-- An object's own enumerable fields, as spread syntax sees them. -/
abbrev Obj := List (String × JVal)

abbrev Heap := List (Nat × Obj)

def nlookup {α : Type} : List (Nat × α) → Nat → Option α
  | [], _ => none
  | (k', v) :: rest, k => if k' = k then some v else nlookup rest k

/-- Allocation: a reference strictly above every live one. -/
def freshRef (h : Heap) : Nat := (h.map Prod.fst).foldr max 0 + 1

def objFields (h : Heap) (r : Nat) : Obj := (nlookup h r).getD []

/-- Models `d.f = v`: a top-level field write on the object at `r`. -/
def setField (h : Heap) (r : Nat) (f : String) (v : JVal) : Heap :=
  h.map (fun p => if p.1 = r then (p.1, aset p.2 f v) else p)

/-- The `Entity` fields again, with component slots holding heap references. -/
structure HEntity where
  id : String
  components : List (String × Nat)
  tags : List String
  active : Bool
  destroyed : Bool
deriving Repr, DecidableEq

/-- Mirrors `addComponent` on the heap: guard on destroyed, then
`this.components.set(componentType, { ...componentData })` — allocate a fresh
object carrying a copy of the argument object's own fields and store its
reference (never `dref` itself). -/
def HEntity.addComponent (h : Heap) (e : HEntity) (componentType : String)
    (dref : Nat) : Heap × HEntity :=
  if e.destroyed then (h, e)
  else
    (h ++ [(freshRef h, objFields h dref)],
      { e with components := aset e.components componentType (freshRef h) })

/-- Mirrors `getComponent` hands back the stored reference. -/
def HEntity.getComponent (e : HEntity) (componentType : String) : Option Nat :=
  alookup e.components componentType

theorem mem_le_foldr_max (l : List Nat) (x : Nat) (hx : x ∈ l) :
    x ≤ l.foldr max 0 := by
  induction l with
  | nil => simp at hx
  | cons a rest ih =>
      rcases List.mem_cons.mp hx with rfl | hr
      · exact le_max_left _ _
      · exact le_trans (ih hr) (le_max_right _ _)

theorem freshRef_not_mem (h : Heap) : freshRef h ∉ h.map Prod.fst := by
  intro hc
  exact absurd (mem_le_foldr_max _ _ hc) (by simp [freshRef])

theorem nlookup_eq_none_iff {α : Type} (m : List (Nat × α)) (k : Nat) :
    nlookup m k = none ↔ k ∉ m.map Prod.fst := by
  induction m with
  | nil => simp [nlookup]
  | cons p rest ih =>
      obtain ⟨k', v⟩ := p
      by_cases h : k' = k <;> simp [nlookup, h, ih, Ne.symm]

theorem nlookup_append_none {α : Type} (m n : List (Nat × α)) (k : Nat)
    (hm : nlookup m k = none) : nlookup (m ++ n) k = nlookup n k := by
  induction m with
  | nil => simp
  | cons p rest ih =>
      obtain ⟨k', v⟩ := p
      by_cases h : k' = k
      · simp [nlookup, h] at hm
      · simpa [nlookup, h] using ih (by simpa [nlookup, h] using hm)

theorem setField_cons (k : Nat) (ob : Obj) (rest : Heap) (r : Nat) (f : String)
    (v : JVal) :
    setField ((k, ob) :: rest) r f v
      = (if k = r then (k, aset ob f v) else (k, ob)) :: setField rest r f v := rfl

theorem nlookup_setField_ne (h : Heap) (r r' : Nat) (f : String) (v : JVal)
    (hne : r' ≠ r) : nlookup (setField h r f v) r' = nlookup h r' := by
  induction h with
  | nil => rfl
  | cons p rest ih =>
      obtain ⟨k, ob⟩ := p
      rw [setField_cons]
      by_cases hk : k = r
      · subst hk
        rw [if_pos rfl]
        simp [nlookup, Ne.symm hne, ih]
      · rw [if_neg hk]
        by_cases hk' : k = r' <;> simp [nlookup, hk', ih]

/- ### Claim C7 -/

/-- Claim C7: on a live entity `addComponent` stores a freshly allocated copy
of the argument object, so the component's data (the fields at the stored
reference) equals the argument's fields at call time and stays unchanged under
any later top-level field write to the caller's original object. -/
theorem component_copy_isolated (h : Heap) (e : HEntity) (t : String) (dref : Nat)
    (hlive : e.destroyed = false) (hdom : dref ∈ h.map Prod.fst) :
    (HEntity.addComponent h e t dref).2.getComponent t = some (freshRef h)
    ∧ objFields (HEntity.addComponent h e t dref).1 (freshRef h) = objFields h dref
    ∧ ∀ (f : String) (v : JVal),
        objFields (setField (HEntity.addComponent h e t dref).1 dref f v)
            (freshRef h)
          = objFields h dref := by
  have hne : freshRef h ≠ dref := by
    intro hc
    exact freshRef_not_mem h (hc ▸ hdom)
  have hstep : HEntity.addComponent h e t dref
      = (h ++ [(freshRef h, objFields h dref)],
          { e with components := aset e.components t (freshRef h) }) := by
    simp [HEntity.addComponent, hlive]
  have hfreshnone : nlookup h (freshRef h) = none :=
    (nlookup_eq_none_iff h (freshRef h)).mpr (freshRef_not_mem h)
  have hcopy : objFields (h ++ [(freshRef h, objFields h dref)]) (freshRef h)
      = objFields h dref := by
    unfold objFields
    rw [nlookup_append_none h _ _ hfreshnone]
    simp [nlookup]
  refine ⟨?_, ?_, ?_⟩
  · rw [hstep]
    exact alookup_aset_self e.components t (freshRef h)
  · rw [hstep]
    exact hcopy
  · intro f v
    rw [hstep]
    show objFields (setField (h ++ [(freshRef h, objFields h dref)]) dref f v)
        (freshRef h) = objFields h dref
    unfold objFields
    rw [nlookup_setField_ne _ _ _ _ _ hne]
    exact hcopy

/-- A one-object heap and a live entity to witness C7: the caller mutates the
original object after `addComponent`; the stored copy is unaffected. -/
theorem component_copy_isolated_witness :
    (HEntity.addComponent [(1, [("x", JVal.num 3)])]
        { id := "p1", components := [], tags := [], active := true,
          destroyed := false } "position" 1).2.getComponent "position"
      = some (freshRef [(1, [("x", JVal.num 3)])])
    ∧ objFields (setField (HEntity.addComponent [(1, [("x", JVal.num 3)])]
          { id := "p1", components := [], tags := [], active := true,
            destroyed := false } "position" 1).1 1 "x" (JVal.num 99))
          (freshRef [(1, [("x", JVal.num 3)])])
        = objFields [(1, [("x", JVal.num 3)])] 1 := by
  have hthm := component_copy_isolated [(1, [("x", JVal.num 3)])]
    { id := "p1", components := [], tags := [], active := true, destroyed := false }
    "position" 1 (by decide) (by decide)
  exact ⟨hthm.1, hthm.2.2 "x" (JVal.num 99)⟩

/- ### EventBus, queue/drain view (src/core/EventBus.js; Claims C1 and C6)

Subscriptions are fixed during the drain in this view (on/off/once during a
drain are covered by the mutable-subscription view further below). A handler's
callback is abstracted by its observable effect on the bus: the events it
emits before returning, and the exception it leaves uncaught, both as a
function of the dispatched args. -/

namespace BusA

/-- A queued `(eventName, args)` entry; args abstracted to a number. -/
abbrev Ev := String × Nat

/-- A registered handler: its identity (JS function reference) and the effect
of `handler.callback.apply(handler.context, args)` — the list of `emit`s it
performs, then optionally an exception it throws. -/
structure Handler where
  id : Nat
  call : Nat → List Ev × Option String

/-- Models `this.events.get(eventName)` with the `has` guard: no entry means no
handlers to run. -/
def handlersFor (events : List (String × List Handler)) (e : String) : List Handler :=
  (alookup events e).getD []

/-- Everything observable about one drain: the dequeued events in dispatch
order, the handler invocations in order, the `console.error` log, and the
queue left when fuel runs out (empty whenever fuel suffices). -/
structure DrainOut where
  dispatched : List Ev
  invoked : List Nat
  errors : List (String × String)
  queue : List Ev

/-- The `handlers.forEach` body: every handler of the snapshot is invoked;
its emits are collected for the queue; a thrown exception is caught by the
per-handler try/catch and logged instead of aborting the iteration. -/
def runHandlers (e : String) (a : Nat) : List Handler → List Ev × List Nat × List (String × String)
  | [] => ([], [], [])
  | h :: rest =>
      let r := h.call a
      let out := runHandlers e a rest
      (r.1 ++ out.1, h.id :: out.2.1,
        (match r.2 with
         | none => ([] : List (String × String))
         | some msg => [(e, msg)]) ++ out.2.2)

/-- Mirrors `processQueue`'s while loop: shift the head entry, snapshot its handlers,
run them (their emits are appended to the queue, since `isProcessing` is true
for the whole drain), repeat. `fuel` bounds the number of iterations — the JS
loop has no such bound and spins forever on a non-terminating cascade. -/
def processQueue (events : List (String × List Handler)) : Nat → List Ev → DrainOut
  | 0, q => ⟨[], [], [], q⟩
  | _ + 1, [] => ⟨[], [], [], []⟩
  | fuel + 1, (e, a) :: q =>
      let step := runHandlers e a (handlersFor events e)
      let out := processQueue events fuel (q ++ step.1)
      ⟨(e, a) :: out.dispatched, step.2.1 ++ out.invoked,
        step.2.2 ++ out.errors, out.queue⟩

/-- The queue and processing flag of the bus. -/
structure Bus where
  eventQueue : List Ev
  isProcessing : Bool

/-- Mirrors `emit`: push the entry, and start a drain only when none is in progress. -/
def emit (events : List (String × List Handler)) (fuel : Nat) (s : Bus)
    (eventName : String) (a : Nat) : Bus × DrainOut :=
  let s1 : Bus := { s with eventQueue := s.eventQueue ++ [(eventName, a)] }
  if s1.isProcessing then (s1, ⟨[], [], [], s1.eventQueue⟩)
  else
    let out := processQueue events fuel s1.eventQueue
    ({ eventQueue := out.queue, isProcessing := false }, out)

/-- The events a single dispatched entry causes to be enqueued: every handler
of the event contributes the emits its callback performs. -/
def childrenOf (events : List (String × List Handler)) (x : Ev) : List Ev :=
  ((handlersFor events x.1).map (fun h => (h.call x.2).1)).flatten

/-- Breadth-first levels of the cascade: the initial queue, then everything
those entries cause, and so on. -/
def level (events : List (String × List Handler)) (q : List Ev) : Nat → List Ev
  | 0 => q
  | n + 1 => ((level events q n).map (childrenOf events)).flatten

def levelsConcat (events : List (String × List Handler)) (q : List Ev) (d : Nat) :
    List Ev :=
  ((List.range d).map (level events q)).flatten

theorem runHandlers_emits (e : String) (a : Nat) (hs : List Handler) :
    (runHandlers e a hs).1 = (hs.map (fun h => (h.call a).1)).flatten := by
  induction hs with
  | nil => rfl
  | cons h rest ih => simp [runHandlers, ih]

theorem runHandlers_invoked (e : String) (a : Nat) (hs : List Handler) :
    (runHandlers e a hs).2.1 = hs.map Handler.id := by
  induction hs with
  | nil => rfl
  | cons h rest ih => simp [runHandlers, ih]

theorem runHandlers_errors_append (e : String) (a : Nat) (l1 l2 : List Handler) :
    (runHandlers e a (l1 ++ l2)).2.2
      = (runHandlers e a l1).2.2 ++ (runHandlers e a l2).2.2 := by
  induction l1 with
  | nil => rfl
  | cons h rest ih => simp [runHandlers, ih]

theorem processQueue_dispatched_append (events : List (String × List Handler))
    (p : List Ev) :
    ∀ (r : List Ev) (fuel : Nat),
      (processQueue events (p.length + fuel) (p ++ r)).dispatched
        = p ++ (processQueue events fuel
            (r ++ (p.map (childrenOf events)).flatten)).dispatched := by
  induction p with
  | nil => intro r fuel; simp
  | cons x p' ih =>
      intro r fuel
      obtain ⟨e, a⟩ := x
      rw [show ((e, a) :: p').length + fuel = (p'.length + fuel) + 1 by
        simp [List.length_cons, Nat.succ_add, Nat.add_comm, Nat.add_assoc, Nat.add_left_comm]]
      show ((e, a) :: (processQueue events (p'.length + fuel)
          ((p' ++ r) ++ (runHandlers e a (handlersFor events e)).1)).dispatched) = _
      rw [runHandlers_emits, List.append_assoc]
      rw [ih (r ++ ((handlersFor events e).map (fun h => (h.call a).1)).flatten) fuel]
      simp [childrenOf, List.append_assoc]

theorem processQueue_bfs (events : List (String × List Handler)) (q : List Ev) :
    ∀ (d fuel : Nat),
      (processQueue events ((levelsConcat events q d).length + fuel) q).dispatched
        = levelsConcat events q d
          ++ (processQueue events fuel (level events q d)).dispatched := by
  intro d
  induction d with
  | zero => intro fuel; simp [levelsConcat, level]
  | succ d ih =>
      intro fuel
      have hsplit : levelsConcat events q (d + 1)
          = levelsConcat events q d ++ level events q d := by
        simp [levelsConcat, List.range_succ]
      rw [hsplit, List.length_append, Nat.add_assoc,
        ih ((level events q d).length + fuel)]
      have hstep := processQueue_dispatched_append events (level events q d) [] fuel
      rw [List.append_nil] at hstep
      rw [hstep]
      show _ = levelsConcat events q d ++ level events q d
          ++ (processQueue events fuel (level events q (d + 1))).dispatched
      rw [show level events q (d + 1)
          = ((level events q d).map (childrenOf events)).flatten from rfl]
      simp

/- ### Claim C1 -/

/-- Claim C1: (a) an `emit` made while a drain is in progress only appends the
entry at the back of the queue and performs no dispatch at all — the running
drain loop picks it up later, so dispatch is never synchronously re-entered
and stack depth does not grow with cascade length; (b) the drain dispatches in
FIFO order, which on event cascades is exactly breadth-first order: the trace
is the concatenation of the cascade's levels, each fully drained before the
events it caused. -/
theorem emit_queue_breadth_first (events : List (String × List Handler)) (s : Bus)
    (eventName : String) (a : Nat) (q : List Ev) (d fuel : Nat)
    (h : s.isProcessing = true) :
    emit events fuel s eventName a
      = ({ eventQueue := s.eventQueue ++ [(eventName, a)], isProcessing := true },
          ⟨[], [], [], s.eventQueue ++ [(eventName, a)]⟩)
    ∧ (processQueue events ((levelsConcat events q d).length + fuel) q).dispatched
        = levelsConcat events q d
          ++ (processQueue events fuel (level events q d)).dispatched := by
  constructor
  · simp [emit, h]
  · exact processQueue_bfs events q d fuel

/-- A cascading handler set for the C1 witness: `root` causes two children,
each `branch` causes one `leaf`. -/
def evA : List (String × List Handler) :=
  [("root", [⟨1, fun a => ([("branch", a), ("branch", a + 1)], none)⟩]),
   ("branch", [⟨2, fun a => ([("leaf", a)], none)⟩])]

/-- Witness for C1: a mid-drain emit only appends, and the three-level drain
trace of the concrete cascade is its breadth-first level concatenation. -/
theorem emit_queue_breadth_first_witness :
    emit evA 3 ⟨[("pending", 0)], true⟩ "extra" 5
      = (⟨[("pending", 0), ("extra", 5)], true⟩,
          ⟨[], [], [], [("pending", 0), ("extra", 5)]⟩)
    ∧ (processQueue evA ((levelsConcat evA [("root", 0)] 2).length + 3)
          [("root", 0)]).dispatched
        = levelsConcat evA [("root", 0)] 2
          ++ (processQueue evA 3 (level evA [("root", 0)] 2)).dispatched :=
  emit_queue_breadth_first evA ⟨[("pending", 0)], true⟩ "extra" 5
    [("root", 0)] 2 3 rfl

/- ### Claim C6 -/

/-- Claim C6: a handler that throws is caught inside the drain loop and logged;
every handler of the event — before and after the throwing one — is still
invoked, the dequeued event still completes, and the drain proceeds to the
remaining queued events; nothing escapes `emit`. -/
theorem handler_error_isolated (events : List (String × List Handler))
    (fuel : Nat) (e : String) (a : Nat) (msg : String) (q : List Ev)
    (hs1 hs2 : List Handler) (bad : Handler) (badEmits : List Ev)
    (hhs : handlersFor events e = hs1 ++ bad :: hs2)
    (hthrow : bad.call a = (badEmits, some msg)) :
    (runHandlers e a (handlersFor events e)).2.1
        = (hs1 ++ bad :: hs2).map Handler.id
    ∧ (e, msg) ∈ (runHandlers e a (handlersFor events e)).2.2
    ∧ (processQueue events (fuel + 1) ((e, a) :: q)).dispatched
        = (e, a) :: (processQueue events fuel
            (q ++ (runHandlers e a (handlersFor events e)).1)).dispatched
    ∧ (processQueue events (fuel + 1) ((e, a) :: q)).invoked
        = (hs1 ++ bad :: hs2).map Handler.id
          ++ (processQueue events fuel
              (q ++ (runHandlers e a (handlersFor events e)).1)).invoked := by
  refine ⟨?_, ?_, ?_, ?_⟩
  · rw [hhs, runHandlers_invoked]
  · rw [hhs, runHandlers_errors_append]
    refine List.mem_append.mpr (Or.inr ?_)
    show (e, msg) ∈ (runHandlers e a (bad :: hs2)).2.2
    have : (runHandlers e a (bad :: hs2)).2.2
        = (match (bad.call a).2 with
           | none => ([] : List (String × String))
           | some m => [(e, m)]) ++ (runHandlers e a hs2).2.2 := rfl
    rw [this, hthrow]
    exact List.mem_append.mpr (Or.inl (List.mem_singleton.mpr rfl))
  · rfl
  · show (runHandlers e a (handlersFor events e)).2.1
        ++ (processQueue events fuel
            (q ++ (runHandlers e a (handlersFor events e)).1)).invoked = _
    rw [hhs, runHandlers_invoked]

/-- Handlers for the C6 witness: the middle one throws after emitting nothing;
its siblings emit one event each. -/
def evC6 : List (String × List Handler) :=
  [("ev", [⟨1, fun a => ([("first", a)], none)⟩,
           ⟨2, fun _ => ([], some "boom")⟩,
           ⟨3, fun a => ([("third", a)], none)⟩])]

/-- Witness for C6 on the concrete bus: all three handlers run, the throw is
logged, the event completes and the queued follower is still drained. -/
theorem handler_error_isolated_witness :
    (runHandlers "ev" 4 (handlersFor evC6 "ev")).2.1
        = ([(⟨1, fun a => ([("first", a)], none)⟩ : Handler)]
            ++ (⟨2, fun _ => ([], some "boom")⟩ : Handler)
            :: [(⟨3, fun a => ([("third", a)], none)⟩ : Handler)]).map Handler.id
    ∧ ("ev", "boom") ∈ (runHandlers "ev" 4 (handlersFor evC6 "ev")).2.2
    ∧ (processQueue evC6 (2 + 1) [("ev", 4), ("next", 7)]).dispatched
        = ("ev", 4) :: (processQueue evC6 2
            ([("next", 7)] ++ (runHandlers "ev" 4 (handlersFor evC6 "ev")).1)).dispatched :=
  let hthm := handler_error_isolated evC6 2 "ev" 4 "boom" [("next", 7)]
    [⟨1, fun a => ([("first", a)], none)⟩]
    [⟨3, fun a => ([("third", a)], none)⟩]
    ⟨2, fun _ => ([], some "boom")⟩ [] rfl rfl
  ⟨hthm.1, hthm.2.1, hthm.2.2.1⟩

end BusA

/- ### EventBus, mutable-subscription view (Claims C8 and C9)

Here the events map itself evolves during a drain, which is what `once` needs:
its wrapper calls the callback and then `off`s itself. A subscription is
keyed by the identity of its registered function+context pair (a number),
since `off` matches by reference equality. Callbacks again carry their
observable behavior: emitted events and an optionally thrown exception. -/

namespace BusB

abbrev Ev := String × Nat

/-- A callback's behavior: the emits it performs and the exception it leaves
uncaught, per args value. -/
structure Beh where
  emits : Nat → List Ev
  err : Nat → Option String

/-- What kind of registration a handler entry is: a plain `on` handler, or the
`onceWrapper` produced by `once` (run the callback, then `off` itself —
the `off` is skipped when the callback throws, as the throw aborts the
wrapper body). -/
inductive HKind where
  | plainH (b : Beh)
  | onceH (b : Beh)

/-- One entry of a handler list: identity and kind. -/
abbrev HItem := Nat × HKind

abbrev EvtsB := List (String × List HItem)

def handlersForB (events : EvtsB) (e : String) : List HItem :=
  (alookup events e).getD []

/-- Mirrors `off`'s `findIndex` + `splice(index, 1)`: drop the first entry whose
callback+context identity matches. -/
def eraseFirstKey : List HItem → Nat → List HItem
  | [], _ => []
  | (k', kd) :: rest, k => if k' = k then rest else (k', kd) :: eraseFirstKey rest k

/-- Mirrors `off(eventName, callback, context)`: no-op without an entry; otherwise
splice the match out and delete the event key entirely when the list
becomes empty. -/
def offB (events : EvtsB) (e : String) (k : Nat) : EvtsB :=
  match alookup events e with
  | none => events
  | some hs =>
      let hs' := eraseFirstKey hs k
      if hs'.isEmpty then aremove events e else aset events e hs'

/-- Mirrors `on`: create the entry if missing, push the handler. -/
def onB (events : EvtsB) (e : String) (it : HItem) : EvtsB :=
  aset events e ((alookup events e).getD [] ++ [it])

/-- Mirrors `once`: register the self-removing wrapper via `on`. -/
def onceB (events : EvtsB) (e : String) (k : Nat) (b : Beh) : EvtsB :=
  onB events e (k, HKind.onceH b)

/-- Invoking one handler of event `e`: a plain handler leaves the map alone
(its throw, if any, is reported); a once wrapper runs the callback and then
`off`s itself — unless the callback threw, in which case the `off` line is
never reached. -/
def runItem (events : EvtsB) (e : String) (a : Nat) (it : HItem) :
    EvtsB × List Ev × Option String :=
  match it.2 with
  | .plainH b => (events, b.emits a, b.err a)
  | .onceH b =>
      match b.err a with
      | none => (offB events e it.1, b.emits a, none)
      | some msg => (events, b.emits a, some msg)

/-- Observables of dispatching one dequeued event. -/
structure DOut where
  events : EvtsB
  emits : List Ev
  invoked : List Nat
  errors : List (String × String)

/-- The `handlers.forEach` over the snapshot copy: every item of the copy is
invoked (the map may change under it) and throws are caught and logged. -/
def dispatchItems (e : String) (a : Nat) : EvtsB → List HItem → DOut
  | events, [] => ⟨events, [], [], []⟩
  | events, it :: rest =>
      let r := runItem events e a it
      let out := dispatchItems e a r.1 rest
      ⟨out.events, r.2.1 ++ out.emits, it.1 :: out.invoked,
        (match r.2.2 with
         | none => ([] : List (String × String))
         | some m => [(e, m)]) ++ out.errors⟩

/-- One iteration of the drain loop's body:
`[...this.events.get(eventName)]` snapshots the current list, then the
snapshot is iterated. -/
def dispatchEvent (events : EvtsB) (e : String) (a : Nat) : DOut :=
  dispatchItems e a events (handlersForB events e)

structure BOut where
  events : EvtsB
  invoked : List Nat
  errors : List (String × String)
  queue : List Ev

/-- Mirrors `processQueue` in this view: emits produced by handlers are appended to
the queue (the drain is in progress, so inner `emit`s only enqueue). -/
def drainB : Nat → EvtsB → List Ev → List Nat → List (String × String) → BOut
  | 0, events, q, inv, errs => ⟨events, inv, errs, q⟩
  | _ + 1, events, [], inv, errs => ⟨events, inv, errs, []⟩
  | fuel + 1, events, (e, a) :: q, inv, errs =>
      let out := dispatchEvent events e a
      drainB fuel out.events (q ++ out.emits) (inv ++ out.invoked)
        (errs ++ out.errors)

/- ### Claim C8, counterexample -/

/-- A once-registered callback that throws on every invocation. -/
def behBoom : Beh := ⟨fun _ => [], fun _ => some "boom"⟩

def evtsOnceBoom : EvtsB := onceB [] "ev" 7 behBoom

/-- Claim C8, counterexample: the claim promises at most one invocation for
every once-registered callback, but when the callback throws, the wrapper's
self-`off` is skipped, so two queued emits of the event invoke it twice. -/
theorem once_throwing_invoked_twice :
    (drainB 5 evtsOnceBoom [("ev", 0), ("ev", 0)] [] []).invoked.count 7 = 2
    ∧ ¬ ((drainB 5 evtsOnceBoom [("ev", 0), ("ev", 0)] [] []).invoked.count 7 ≤ 1) := by
  constructor <;> decide

/- ### Basic facts about the mutable view -/

theorem dispatchItems_invoked (e : String) (a : Nat) :
    ∀ (items : List HItem) (events : EvtsB),
      (dispatchItems e a events items).invoked = items.map Prod.fst := by
  intro items
  induction items with
  | nil => intro events; rfl
  | cons it rest ih =>
      intro events
      simp [dispatchItems, ih]

theorem eraseFirstKey_mem_ne (hs : List HItem) (k : Nat) (it : HItem)
    (hne : it.1 ≠ k) (hmem : it ∈ hs) : it ∈ eraseFirstKey hs k := by
  induction hs with
  | nil => simp at hmem
  | cons q rest ih =>
      obtain ⟨k', kd⟩ := q
      by_cases hk : k' = k
      · rcases List.mem_cons.mp hmem with heq | hr
        · exact absurd (heq ▸ rfl : it.1 = k') (by rw [hk]; exact hne)
        · simpa [eraseFirstKey, hk] using hr
      · rcases List.mem_cons.mp hmem with heq | hr
        · simp [eraseFirstKey, hk, heq]
        · simp [eraseFirstKey, hk, ih hr]

theorem eraseFirstKey_subset (hs : List HItem) (k : Nat) (it : HItem)
    (hmem : it ∈ eraseFirstKey hs k) : it ∈ hs := by
  induction hs with
  | nil => simp [eraseFirstKey] at hmem
  | cons q rest ih =>
      obtain ⟨k', kd⟩ := q
      by_cases hk : k' = k
      · exact List.mem_cons_of_mem _ (by simpa [eraseFirstKey, hk] using hmem)
      · rcases List.mem_cons.mp (by simpa [eraseFirstKey, hk] using hmem) with heq | hr
        · exact heq ▸ List.mem_cons_self _ _
        · exact List.mem_cons_of_mem _ (ih hr)

theorem handlersForB_offB_self (events : EvtsB) (e : String) (k : Nat)
    (hnd : (events.map Prod.fst).Nodup) :
    handlersForB (offB events e k) e = eraseFirstKey (handlersForB events e) k := by
  unfold offB
  rcases h : alookup events e with _ | hs
  · simp [handlersForB, h, eraseFirstKey]
  · by_cases hemp : (eraseFirstKey hs k).isEmpty
    · have hnil : eraseFirstKey hs k = [] := by simpa using hemp
      simp [hemp, handlersForB, alookup_aremove_self events e hnd, h, hnil]
    · simp [hemp, handlersForB, alookup_aset_self, h]

theorem handlersForB_offB_ne (events : EvtsB) (e e' : String) (k : Nat)
    (hne : e' ≠ e) :
    handlersForB (offB events e k) e' = handlersForB events e' := by
  unfold offB
  rcases h : alookup events e with _ | hs
  · rfl
  · by_cases hemp : (eraseFirstKey hs k).isEmpty
    · simp [hemp, handlersForB, alookup_aremove_ne events e e' hne]
    · simp [hemp, handlersForB, alookup_aset_ne _ _ _ _ hne]

theorem offB_keys_nodup (events : EvtsB) (e : String) (k : Nat)
    (hnd : (events.map Prod.fst).Nodup) :
    ((offB events e k).map Prod.fst).Nodup := by
  unfold offB
  rcases h : alookup events e with _ | hs
  · exact hnd
  · by_cases hemp : (eraseFirstKey hs k).isEmpty
    · simpa [hemp] using aremove_keys_nodup events e hnd
    · simpa [hemp] using aset_keys_nodup events e (eraseFirstKey hs k) hnd

theorem mem_handlersForB_offB (events : EvtsB) (e e' : String) (k k' : Nat)
    (x : HKind) (hnd : (events.map Prod.fst).Nodup) (hne : k ≠ k')
    (hmem : (k, x) ∈ handlersForB events e') :
    (k, x) ∈ handlersForB (offB events e k') e' := by
  by_cases he : e' = e
  · subst he
    rw [handlersForB_offB_self events e' k' hnd]
    exact eraseFirstKey_mem_ne _ _ _ hne hmem
  · rw [handlersForB_offB_ne events e e' k' he]
    exact hmem

theorem runItem_once_ok (events : EvtsB) (e : String) (a : Nat) (k1 : Nat)
    (b : Beh) (h : b.err a = none) :
    runItem events e a (k1, HKind.onceH b) = (offB events e k1, b.emits a, none) := by
  show (match b.err a with
        | none => (offB events e k1, b.emits a, none)
        | some msg => (events, b.emits a, some msg)) = _
  rw [h]

theorem runItem_once_throw (events : EvtsB) (e : String) (a : Nat) (k1 : Nat)
    (b : Beh) (msg : String) (h : b.err a = some msg) :
    runItem events e a (k1, HKind.onceH b) = (events, b.emits a, some msg) := by
  show (match b.err a with
        | none => (offB events e k1, b.emits a, none)
        | some m => (events, b.emits a, some m)) = _
  rw [h]

theorem dispatchItems_events_cons (e : String) (a : Nat) (events : EvtsB)
    (it : HItem) (rest : List HItem) :
    (dispatchItems e a events (it :: rest)).events
      = (dispatchItems e a (runItem events e a it).1 rest).events := rfl

theorem dispatchItems_events_cons_plain (e : String) (a : Nat) (events : EvtsB)
    (k1 : Nat) (b : Beh) (rest : List HItem) :
    (dispatchItems e a events ((k1, HKind.plainH b) :: rest)).events
      = (dispatchItems e a events rest).events := rfl

theorem dispatchItems_events_cons_once_ok (e : String) (a : Nat) (events : EvtsB)
    (k1 : Nat) (b : Beh) (rest : List HItem) (h : b.err a = none) :
    (dispatchItems e a events ((k1, HKind.onceH b) :: rest)).events
      = (dispatchItems e a (offB events e k1) rest).events := by
  rw [dispatchItems_events_cons, runItem_once_ok events e a k1 b h]

theorem dispatchItems_events_cons_once_throw (e : String) (a : Nat)
    (events : EvtsB) (k1 : Nat) (b : Beh) (msg : String) (rest : List HItem)
    (h : b.err a = some msg) :
    (dispatchItems e a events ((k1, HKind.onceH b) :: rest)).events
      = (dispatchItems e a events rest).events := by
  rw [dispatchItems_events_cons, runItem_once_throw events e a k1 b msg h]

/-- Items whose key is `k` never remove the key-`k` subscription during this
dispatch (their callback throws, or they are plain handlers). -/
def NoSelfOff (items : List HItem) (k : Nat) (a : Nat) : Prop :=
  ∀ it ∈ items, ∀ b, it.2 = HKind.onceH b → it.1 = k → b.err a ≠ none

theorem dispatchItems_keeps (e : String) (a : Nat) (k : Nat) (x : HKind) :
    ∀ (items : List HItem) (events : EvtsB),
      (events.map Prod.fst).Nodup →
      NoSelfOff items k a →
      (∀ e', (k, x) ∈ handlersForB events e' →
        (k, x) ∈ handlersForB (dispatchItems e a events items).events e')
      ∧ ((dispatchItems e a events items).events.map Prod.fst).Nodup := by
  intro items
  induction items with
  | nil => intro events hnd _; exact ⟨fun e' h => h, hnd⟩
  | cons it rest ih =>
      intro events hnd hns
      have hnsrest : NoSelfOff rest k a :=
        fun q hq b hb hk => hns q (List.mem_cons_of_mem _ hq) b hb hk
      obtain ⟨k1, kd⟩ := it
      cases kd with
      | plainH b =>
          rw [dispatchItems_events_cons]
          exact ih events hnd hnsrest
      | onceH b =>
          rcases herr : b.err a with _ | msg
          · have hk1 : k1 ≠ k := by
              intro hc
              exact hns (k1, HKind.onceH b) (List.mem_cons_self _ _) b rfl hc herr
            rw [dispatchItems_events_cons, runItem_once_ok events e a k1 b herr]
            have hrec := ih (offB events e k1) (offB_keys_nodup events e k1 hnd) hnsrest
            refine ⟨?_, hrec.2⟩
            intro e' hmem
            exact hrec.1 e'
              (mem_handlersForB_offB events e e' k k1 x hnd (fun hc => hk1 hc.symm) hmem)
          · rw [dispatchItems_events_cons, runItem_once_throw events e a k1 b msg herr]
            exact ih events hnd hnsrest

/- ### Claim C9 -/

/-- Claim C9 (implicit behavior confirmed): when a once-registered callback
throws on its first invocation, the wrapper's self-removal is skipped — the
subscription survives the dispatch and the next dispatch of the event invokes
the callback again. -/
theorem once_throw_keeps_subscription (events : EvtsB) (e : String) (a a' : Nat)
    (k : Nat) (b : Beh) (msg : String)
    (hwf : (events.map Prod.fst).Nodup)
    (hmem : (k, HKind.onceH b) ∈ handlersForB events e)
    (hthrow : b.err a = some msg)
    (huniq : ∀ b', (k, HKind.onceH b') ∈ handlersForB events e → b' = b) :
    k ∈ (dispatchEvent events e a).invoked
    ∧ (k, HKind.onceH b) ∈ handlersForB (dispatchEvent events e a).events e
    ∧ k ∈ (dispatchEvent (dispatchEvent events e a).events e a').invoked := by
  have hns : NoSelfOff (handlersForB events e) k a := by
    intro it hit b' hb' hk
    have hm' : (k, HKind.onceH b') ∈ handlersForB events e := by
      have heta : it = (it.1, it.2) := rfl
      rw [heta, hk, hb'] at hit
      exact hit
    rw [huniq b' hm', hthrow]
    exact fun hc => Option.noConfusion hc
  have hkeeps := dispatchItems_keeps e a k (HKind.onceH b)
    (handlersForB events e) events hwf hns
  refine ⟨?_, ?_, ?_⟩
  · rw [show (dispatchEvent events e a).invoked
        = (handlersForB events e).map Prod.fst from
        dispatchItems_invoked e a (handlersForB events e) events]
    exact List.mem_map_of_mem Prod.fst hmem
  · exact hkeeps.1 e hmem
  · rw [show (dispatchEvent (dispatchEvent events e a).events e a').invoked
        = (handlersForB (dispatchEvent events e a).events e).map Prod.fst from
        dispatchItems_invoked e a' _ _]
    exact List.mem_map_of_mem Prod.fst (hkeeps.1 e hmem)

/-- Witness for C9 on the concrete throwing once-subscription. -/
theorem once_throw_keeps_subscription_witness :
    7 ∈ (dispatchEvent evtsOnceBoom "ev" 0).invoked
    ∧ (7, HKind.onceH behBoom) ∈ handlersForB (dispatchEvent evtsOnceBoom "ev" 0).events "ev"
    ∧ 7 ∈ (dispatchEvent (dispatchEvent evtsOnceBoom "ev" 0).events "ev" 0).invoked := by
  have hthm := once_throw_keeps_subscription evtsOnceBoom "ev" 0 0 7 behBoom "boom"
    (by decide)
    (by show (7, HKind.onceH behBoom) ∈ [(7, HKind.onceH behBoom)]
        exact List.mem_singleton.mpr rfl)
    rfl
    (by intro b' hb'
        have h1 := List.mem_singleton.mp
          (show (7, HKind.onceH b') ∈ [(7, HKind.onceH behBoom)] from hb')
        have h2 : HKind.onceH b' = HKind.onceH behBoom := congrArg Prod.snd h1
        cases h2
        rfl)
  exact hthm

/- ### Counting machinery for Claim C8 -/

/-- How many entries of a handler list carry identity `k`. -/
def bucketKeyCount (hs : List HItem) (k : Nat) : Nat :=
  (hs.filter (fun it => it.1 == k)).length

/-- How many entries of the whole events map carry identity `k`. -/
def keyOcc (events : EvtsB) (k : Nat) : Nat :=
  (events.map (fun p => bucketKeyCount p.2 k)).sum

/-- Identity `k` is registered only as once wrappers of a never-throwing
callback (the amended C8's reading of "registered via `once`, not
throwing"). -/
def KOnce (events : EvtsB) (k : Nat) : Prop :=
  ∀ e it, it ∈ handlersForB events e → it.1 = k →
    ∃ b, it.2 = HKind.onceH b ∧ ∀ a, b.err a = none

theorem bucketKeyCount_cons_self (it : HItem) (rest : List HItem) (k : Nat)
    (h : it.1 = k) : bucketKeyCount (it :: rest) k = bucketKeyCount rest k + 1 := by
  simp [bucketKeyCount, List.filter_cons, h]

theorem bucketKeyCount_cons_ne (it : HItem) (rest : List HItem) (k : Nat)
    (h : it.1 ≠ k) : bucketKeyCount (it :: rest) k = bucketKeyCount rest k := by
  simp [bucketKeyCount, List.filter_cons, h]

theorem count_map_fst (items : List HItem) (k : Nat) :
    (items.map Prod.fst).count k = bucketKeyCount items k := by
  induction items with
  | nil => rfl
  | cons it rest ih =>
      by_cases h : it.1 = k
      · rw [bucketKeyCount_cons_self it rest k h]
        simp [List.count_cons, h, ih]
      · rw [bucketKeyCount_cons_ne it rest k h]
        simp [List.count_cons, h, ih]

theorem bucketKeyCount_eraseFirstKey_self (hs : List HItem) (k : Nat)
    (hpos : 1 ≤ bucketKeyCount hs k) :
    bucketKeyCount (eraseFirstKey hs k) k + 1 = bucketKeyCount hs k := by
  induction hs with
  | nil => simp [bucketKeyCount] at hpos
  | cons it rest ih =>
      obtain ⟨k', kd⟩ := it
      by_cases hk : k' = k
      · rw [show eraseFirstKey ((k', kd) :: rest) k = rest by simp [eraseFirstKey, hk],
          bucketKeyCount_cons_self (k', kd) rest k hk]
      · rw [show eraseFirstKey ((k', kd) :: rest) k
            = (k', kd) :: eraseFirstKey rest k by simp [eraseFirstKey, hk],
          bucketKeyCount_cons_ne _ _ k hk, bucketKeyCount_cons_ne _ _ k hk]
        exact ih (by rwa [bucketKeyCount_cons_ne _ _ k hk] at hpos)

theorem bucketKeyCount_eraseFirstKey_ne (hs : List HItem) (k' k : Nat)
    (hne : k' ≠ k) :
    bucketKeyCount (eraseFirstKey hs k') k = bucketKeyCount hs k := by
  induction hs with
  | nil => rfl
  | cons it rest ih =>
      obtain ⟨k'', kd⟩ := it
      by_cases hk : k'' = k'
      · rw [show eraseFirstKey ((k'', kd) :: rest) k' = rest by simp [eraseFirstKey, hk],
          bucketKeyCount_cons_ne _ _ k (by simpa [hk] using hne)]
      · rw [show eraseFirstKey ((k'', kd) :: rest) k'
            = (k'', kd) :: eraseFirstKey rest k' by simp [eraseFirstKey, hk]]
        by_cases hkk : k'' = k
        · rw [bucketKeyCount_cons_self _ _ k hkk, bucketKeyCount_cons_self _ _ k hkk, ih]
        · rw [bucketKeyCount_cons_ne _ _ k hkk, bucketKeyCount_cons_ne _ _ k hkk, ih]

theorem keyOcc_aset (events : EvtsB) (e : String) (hs hs' : List HItem) (k : Nat)
    (h : alookup events e = some hs) :
    keyOcc (aset events e hs') k + bucketKeyCount hs k
      = keyOcc events k + bucketKeyCount hs' k := by
  induction events with
  | nil => simp [alookup] at h
  | cons p rest ih =>
      obtain ⟨e', l⟩ := p
      by_cases he : e' = e
      · have hl : l = hs := by simpa [alookup, he] using h
        subst hl
        simp [aset, he, keyOcc]
        omega
      · have h' : alookup rest e = some hs := by simpa [alookup, he] using h
        have := ih h'
        simp [aset, he, keyOcc] at this ⊢
        omega

theorem keyOcc_aremove (events : EvtsB) (e : String) (hs : List HItem) (k : Nat)
    (h : alookup events e = some hs) :
    keyOcc (aremove events e) k + bucketKeyCount hs k = keyOcc events k := by
  induction events with
  | nil => simp [alookup] at h
  | cons p rest ih =>
      obtain ⟨e', l⟩ := p
      by_cases he : e' = e
      · have hl : l = hs := by simpa [alookup, he] using h
        subst hl
        simp [aremove, he, keyOcc]
        omega
      · have h' : alookup rest e = some hs := by simpa [alookup, he] using h
        have := ih h'
        simp [aremove, he, keyOcc] at this ⊢
        omega

theorem bucketKeyCount_le_keyOcc (events : EvtsB) (e : String) (k : Nat) :
    bucketKeyCount (handlersForB events e) k ≤ keyOcc events k := by
  induction events with
  | nil => simp [handlersForB, alookup, bucketKeyCount]
  | cons p rest ih =>
      obtain ⟨e', l⟩ := p
      by_cases he : e' = e
      · simp [handlersForB, alookup, he, keyOcc]
      · have h1 : handlersForB ((e', l) :: rest) e = handlersForB rest e := by
          simp [handlersForB, alookup, he]
        rw [h1]
        have h2 : keyOcc ((e', l) :: rest) k = bucketKeyCount l k + keyOcc rest k := by
          simp [keyOcc]
        rw [h2]
        omega

theorem keyOcc_offB_self (events : EvtsB) (e : String) (k : Nat)
    (hpos : 1 ≤ bucketKeyCount (handlersForB events e) k) :
    keyOcc (offB events e k) k + 1 = keyOcc events k := by
  unfold offB
  rcases h : alookup events e with _ | hs
  · rw [show handlersForB events e = [] from by simp [handlersForB, h]] at hpos
    simp [bucketKeyCount] at hpos
  · have hhs : handlersForB events e = hs := by simp [handlersForB, h]
    rw [hhs] at hpos
    have herase := bucketKeyCount_eraseFirstKey_self hs k hpos
    by_cases hemp : (eraseFirstKey hs k).isEmpty
    · have hnil : eraseFirstKey hs k = [] := by simpa using hemp
      have hc1 : bucketKeyCount hs k = 1 := by
        rw [hnil] at herase
        simpa [bucketKeyCount] using herase.symm
      have := keyOcc_aremove events e hs k h
      simp [hemp]
      omega
    · have := keyOcc_aset events e hs (eraseFirstKey hs k) k h
      simp [hemp]
      omega

theorem keyOcc_offB_ne (events : EvtsB) (e : String) (k' k : Nat) (hne : k' ≠ k) :
    keyOcc (offB events e k') k = keyOcc events k := by
  unfold offB
  rcases h : alookup events e with _ | hs
  · rfl
  · have herase := bucketKeyCount_eraseFirstKey_ne hs k' k hne
    by_cases hemp : (eraseFirstKey hs k').isEmpty
    · have hnil : eraseFirstKey hs k' = [] := by simpa using hemp
      have hc0 : bucketKeyCount hs k = 0 := by
        rw [hnil] at herase
        simpa [bucketKeyCount] using herase.symm
      have := keyOcc_aremove events e hs k h
      simp [hemp]
      omega
    · have := keyOcc_aset events e hs (eraseFirstKey hs k') k h
      rw [herase] at this
      simp [hemp]
      omega

/-- Key-`k` entries of the snapshot are once wrappers that do not throw at
the dispatched args. -/
def ItemsOnceOk (items : List HItem) (k : Nat) (a : Nat) : Prop :=
  ∀ it ∈ items, it.1 = k → ∃ b, it.2 = HKind.onceH b ∧ b.err a = none

theorem dispatchItems_bucket_subset (e : String) (a : Nat) :
    ∀ (items : List HItem) (events : EvtsB),
      (events.map Prod.fst).Nodup →
      (∀ e' it, it ∈ handlersForB (dispatchItems e a events items).events e' →
        it ∈ handlersForB events e')
      ∧ ((dispatchItems e a events items).events.map Prod.fst).Nodup := by
  intro items
  induction items with
  | nil => intro events hnd; exact ⟨fun e' it h => h, hnd⟩
  | cons it rest ih =>
      intro events hnd
      obtain ⟨k1, kd⟩ := it
      cases kd with
      | plainH b =>
          rw [dispatchItems_events_cons]
          exact ih events hnd
      | onceH b =>
          rcases herr : b.err a with _ | msg
          · rw [dispatchItems_events_cons, runItem_once_ok events e a k1 b herr]
            have hrec := ih (offB events e k1) (offB_keys_nodup events e k1 hnd)
            refine ⟨?_, hrec.2⟩
            intro e' q hq
            have h1 := hrec.1 e' q hq
            by_cases he : e' = e
            · subst he
              rw [handlersForB_offB_self events e' k1 hnd] at h1
              exact eraseFirstKey_subset _ _ _ h1
            · rwa [handlersForB_offB_ne events e e' k1 he] at h1
          · rw [dispatchItems_events_cons, runItem_once_throw events e a k1 b msg herr]
            exact ih events hnd

theorem dispatchItems_keyOcc (e : String) (a : Nat) (k : Nat) :
    ∀ (items : List HItem) (events : EvtsB),
      (events.map Prod.fst).Nodup →
      ItemsOnceOk items k a →
      bucketKeyCount items k ≤ bucketKeyCount (handlersForB events e) k →
      keyOcc (dispatchItems e a events items).events k + bucketKeyCount items k
        = keyOcc events k := by
  intro items
  induction items with
  | nil =>
      intro events _ _ _
      show keyOcc events k + bucketKeyCount [] k = keyOcc events k
      simp [bucketKeyCount]
  | cons it rest ih =>
      intro events hnd hok hle
      have hokrest : ItemsOnceOk rest k a :=
        fun q hq hk => hok q (List.mem_cons_of_mem _ hq) hk
      obtain ⟨k1, kd⟩ := it
      cases kd with
      | plainH b =>
          have hk1 : k1 ≠ k := by
            intro hc
            rcases hok (k1, HKind.plainH b) (List.mem_cons_self _ _) hc with ⟨b', hb', _⟩
            exact HKind.noConfusion hb'
          rw [dispatchItems_events_cons_plain]
          rw [bucketKeyCount_cons_ne (k1, HKind.plainH b) rest k hk1] at hle ⊢
          exact ih events hnd hokrest hle
      | onceH b =>
          rcases herr : b.err a with _ | msg
          · rw [dispatchItems_events_cons_once_ok e a events k1 b rest herr]
            by_cases hk1 : k1 = k
            · subst hk1
              rw [bucketKeyCount_cons_self (k1, HKind.onceH b) rest k1 rfl] at hle ⊢
              have hpos : 1 ≤ bucketKeyCount (handlersForB events e) k1 := by omega
              have hoff := keyOcc_offB_self events e k1 hpos
              have hbucket : bucketKeyCount (handlersForB (offB events e k1) e) k1 + 1
                  = bucketKeyCount (handlersForB events e) k1 := by
                rw [handlersForB_offB_self events e k1 hnd]
                exact bucketKeyCount_eraseFirstKey_self _ k1 hpos
              have hle' : bucketKeyCount rest k1
                  ≤ bucketKeyCount (handlersForB (offB events e k1) e) k1 := by omega
              have := ih (offB events e k1) (offB_keys_nodup events e k1 hnd)
                hokrest hle'
              omega
            · rw [bucketKeyCount_cons_ne (k1, HKind.onceH b) rest k hk1] at hle ⊢
              have hoff := keyOcc_offB_ne events e k1 k hk1
              have hbucket : bucketKeyCount (handlersForB (offB events e k1) e) k
                  = bucketKeyCount (handlersForB events e) k := by
                rw [handlersForB_offB_self events e k1 hnd]
                exact bucketKeyCount_eraseFirstKey_ne _ k1 k hk1
              have := ih (offB events e k1) (offB_keys_nodup events e k1 hnd)
                hokrest (by omega)
              omega
          · have hk1 : k1 ≠ k := by
              intro hc
              rcases hok (k1, HKind.onceH b) (List.mem_cons_self _ _) hc with ⟨b', hb', hbe⟩
              have hbb : b = b' := by
                have := HKind.onceH.inj hb'
                exact this
              rw [hbb, hbe] at herr
              exact Option.noConfusion herr
            rw [dispatchItems_events_cons_once_throw e a events k1 b msg rest herr]
            rw [bucketKeyCount_cons_ne (k1, HKind.onceH b) rest k hk1] at hle ⊢
            exact ih events hnd hokrest hle

theorem drainB_count_le (k : Nat) :
    ∀ (fuel : Nat) (events : EvtsB) (q : List Ev) (inv : List Nat)
      (errs : List (String × String)),
      (events.map Prod.fst).Nodup →
      KOnce events k →
      inv.count k + keyOcc events k ≤ 1 →
      (drainB fuel events q inv errs).invoked.count k ≤ 1 := by
  intro fuel
  induction fuel with
  | zero =>
      intro events q inv errs _ _ hbound
      show inv.count k ≤ 1
      omega
  | succ fuel ih =>
      intro events q inv errs hnd honce hbound
      rcases q with _ | ⟨⟨e, a⟩, q'⟩
      · show inv.count k ≤ 1
        omega
      · show (drainB fuel (dispatchEvent events e a).events
            (q' ++ (dispatchEvent events e a).emits)
            (inv ++ (dispatchEvent events e a).invoked)
            (errs ++ (dispatchEvent events e a).errors)).invoked.count k ≤ 1
        have hitems : ItemsOnceOk (handlersForB events e) k a := by
          intro it hit hk
          rcases honce e it hit hk with ⟨b, hb, hnone⟩
          exact ⟨b, hb, hnone a⟩
        have hkc : keyOcc (dispatchEvent events e a).events k
            + bucketKeyCount (handlersForB events e) k = keyOcc events k :=
          dispatchItems_keyOcc e a k (handlersForB events e) events hnd
            hitems (le_refl _)
        have hsub := dispatchItems_bucket_subset e a (handlersForB events e) events hnd
        have honce' : KOnce (dispatchEvent events e a).events k := by
          intro e' it hit hk
          exact honce e' it (hsub.1 e' it hit) hk
        have hinvcount : (dispatchEvent events e a).invoked.count k
            = bucketKeyCount (handlersForB events e) k := by
          rw [show (dispatchEvent events e a).invoked
              = (handlersForB events e).map Prod.fst from
              dispatchItems_invoked e a (handlersForB events e) events]
          exact count_map_fst _ k
        have hbound' : (inv ++ (dispatchEvent events e a).invoked).count k
            + keyOcc (dispatchEvent events e a).events k ≤ 1 := by
          rw [List.count_append, hinvcount]
          omega
        exact ih (dispatchEvent events e a).events
          (q' ++ (dispatchEvent events e a).emits)
          (inv ++ (dispatchEvent events e a).invoked)
          (errs ++ (dispatchEvent events e a).errors)
          hsub.2 honce' hbound'

/- ### Claim C8, amended -/

/-- Claim C8 (amended): a callback registered (once, by identity `k`) via
`once` is invoked at most once over any drain — including re-entrant emits of
the same event from inside the callback itself, since the removal is done by
the wrapper and the per-event handler snapshot is taken afresh at each
dispatch — provided the callback does not throw; the counterexample shows a
throwing callback is invoked again because the wrapper's self-removal is
skipped. -/
theorem once_at_most_once_of_no_throw (events : EvtsB) (k : Nat) (fuel : Nat)
    (q : List Ev)
    (hwf : (events.map Prod.fst).Nodup)
    (honce : KOnce events k)
    (hocc : keyOcc events k ≤ 1) :
    (drainB fuel events q [] []).invoked.count k ≤ 1 :=
  drainB_count_le k fuel events q [] [] hwf honce (by simpa using hocc)

/-- The once-registered callback for the C8 witness re-emits its own event —
the re-entrant case the spec calls out. -/
def behRe : Beh := ⟨fun a => [("ev", a + 1)], fun _ => none⟩

def evtsOnceRe : EvtsB := onceB [] "ev" 7 behRe

/-- Witness for the amended C8: even though the callback re-emits "ev", the
drain invokes identity 7 at most once. -/
theorem once_at_most_once_of_no_throw_witness :
    (drainB 4 evtsOnceRe [("ev", 0)] [] []).invoked.count 7 ≤ 1 :=
  once_at_most_once_of_no_throw evtsOnceRe 7 4 [("ev", 0)]
    (by decide)
    (by intro e it hit hk
        have hh : handlersForB evtsOnceRe e
            = if "ev" = e then [(7, HKind.onceH behRe)] else [] := by
          show (alookup [("ev", [(7, HKind.onceH behRe)])] e).getD [] = _
          by_cases he : "ev" = e <;> simp [alookup, he]
        rw [hh] at hit
        by_cases he : "ev" = e
        · rw [if_pos he] at hit
          have := List.mem_singleton.mp hit
          rw [this]
          exact ⟨behRe, rfl, fun a => rfl⟩
        · rw [if_neg he] at hit
          simp at hit)
    (by decide)

end BusB

end RPG
